import Mathlib

/-!
# gmatrix: a dense row-major matrix of `float32`

A shallow embedding of `matrix.go` and the properties of its operations.

Modelling conventions.

* Go `int` is a 64-bit two-complement integer (a 64-bit platform).  It is
  modelled by `Int`, and `wrapInt` brings a mathematical value into
  `[-2^63, 2^63)` where an `int` expression can overflow.  On a matrix whose
  `data` has length `rows * columns` every index expression evaluated at a
  valid position lies in `[0, len(data)]` and cannot overflow.  The size
  `r * c` computed by `Zeros`, `New`, `Identity` and `Multiply` can: the
  definitions in the namespace `Wrapping` compute it with `wrapInt`, as the
  code does, and the properties of these four functions are stated about them.
  The definitions of the same names outside `Wrapping` take the size as the
  mathematical product; they agree with the wrapping ones whenever the product
  lies in `[-2^63, 2^63)` (`wrapping_Zeros_eq`, `wrapping_New_eq`,
  `wrapping_Identity_eq`, `wrapping_Multiply_eq`), which is the case whenever
  the product is the length of a slice.
* `make([]float32, n)` panics for negative `n` and otherwise returns `n`
  zeros: memory is not bounded.
* A `[]float32` is modelled by `List F32`; indexing outside `[0, len)` and
  slicing outside `0 ≤ lo ≤ hi ≤ len` panic (capacity equals length, as for
  every slice allocated by `make`).
* A panic (or a loop that never returns) is `none`; mutation through the
  `*Matrix` receiver is explicit state passing.
* A counted loop `for i := 1; i <= n; i++` whose body changes neither `i` nor
  `n` is a fold over the counter values `1, ..., n`; the loop bodies of the
  package only assign to cells of `data`, never to `rows` or `columns`.  The
  bound `n` is taken below the largest `int`, where `i++` does not wrap.
* `float32` is modelled by `F32`: IEEE-754 binary32 with round-to-nearest,
  ties-to-even, each operation rounded on its own (no fused multiply-add).
  A finite value is stored as a sign and a natural number `k` standing for
  `k * 2^-149`, the spacing of the subnormal numbers, so that every finite
  binary32 value is an integer; `F32.IsFinite` singles out the natural numbers
  that are binary32 values.  All NaNs are identified.
* `strconv.FormatFloat`, a function of the standard library, is a parameter
  `format : F32 → String` of the method `String`; a `bytes.Buffer` is the text
  written so far.
-/

namespace Gmatrix

/-! ## The `float32` arithmetic -/

/-- Values of type `float32`: not-a-number, the two infinities, and the finite
values `(-1)^neg * k * 2^-149`. -/
inductive F32 where
  | nan : F32
  | inf (neg : Bool) : F32
  | fin (neg : Bool) (k : Nat) : F32
deriving DecidableEq

namespace F32

/-- Number of binary digits of `q`, counted in at most `fuel` halvings. -/
def bitLen : Nat → Nat → Nat
  | 0, _ => 0
  | fuel + 1, q => if q = 0 then 0 else bitLen fuel (q / 2) + 1

/-- Spacing, in units of `2^-149`, of the binary32 values in the binade of
`q`: one up to `2^24`, then `2^(bitlength q - 24)`. -/
def ulp (q : Nat) : Nat := 2 ^ (bitLen q q - 24)

/-- The integer nearest to `n / d`, ties going to the even one. -/
def roundNearestEven (n d : Nat) : Nat :=
  if 2 * (n % d) < d then n / d
  else if d < 2 * (n % d) then n / d + 1
  else if (n / d) % 2 = 0 then n / d
  else n / d + 1

/-- Rounding of the exact magnitude `n / d` (in units of `2^-149`) to
binary32: 24 significant bits, overflow to infinity from `2^128` on, which is
`2^128 * 2^149` units. -/
def round (neg : Bool) (n d : Nat) : F32 :=
  if ulp (n / d) * roundNearestEven n (d * ulp (n / d)) < 2 ^ 128 * 2 ^ 149 then
    fin neg (ulp (n / d) * roundNearestEven n (d * ulp (n / d)))
  else inf neg

/-- The magnitude `k` (in units of `2^-149`) is a binary32 value: below
`2^128` and with at most 24 significant bits. -/
def Representable (k : Nat) : Prop := k < 2 ^ 128 * 2 ^ 149 ∧ k % ulp k = 0

instance (k : Nat) : Decidable (Representable k) :=
  inferInstanceAs (Decidable (k < 2 ^ 128 * 2 ^ 149 ∧ k % ulp k = 0))

/-- The value is a finite `float32` (neither NaN nor an infinity). -/
def IsFinite : F32 → Prop
  | fin _ k => Representable k
  | _ => False

instance : (x : F32) → Decidable (IsFinite x)
  | nan => isFalse (fun h => h)
  | inf _ => isFalse (fun h => h)
  | fin _ k => inferInstanceAs (Decidable (Representable k))

/-- The value is one of type `float32`: NaN, an infinity, or a finite value
whose magnitude is a binary32 value. -/
def IsFloat32 : F32 → Prop
  | fin _ k => Representable k
  | _ => True

/-- A finite `float32` other than the negative zero. -/
def IsFiniteNotNegZero : F32 → Prop
  | fin s k => Representable k ∧ (k = 0 → s = false)
  | _ => False

/-- The `float32` product `x * y`. -/
def mul : F32 → F32 → F32
  | nan, _ => nan
  | _, nan => nan
  | inf s, inf t => inf (xor s t)
  | inf s, fin t k => if k = 0 then nan else inf (xor s t)
  | fin s k, inf t => if k = 0 then nan else inf (xor s t)
  | fin s j, fin t k => round (xor s t) (j * k) (2 ^ 149)

/-- The `float32` sum `x + y`. -/
def add : F32 → F32 → F32
  | nan, _ => nan
  | _, nan => nan
  | inf s, inf t => if s = t then inf s else nan
  | inf s, fin _ _ => inf s
  | fin _ _, inf t => inf t
  | fin s j, fin t k =>
    if s = t then round s (j + k) 1
    else if j = k then fin false 0
    else if k < j then round s (j - k) 1
    else round t (k - j) 1

/-- The constant `0` (the zero value of `float32`). -/
def zero : F32 := fin false 0

/-- The constant `1`. -/
def one : F32 := fin false (2 ^ 149)

/-- The comparison `x == y` of Go: NaN equals nothing, and the two zeros are
equal. -/
def feq : F32 → F32 → Bool
  | nan, _ => false
  | _, nan => false
  | inf s, inf t => s == t
  | fin s j, fin t k => (j == k) && (s == t || j == 0)
  | _, _ => false

/-- The `float32` with the given IEEE-754 bit pattern (taken modulo `2^32`). -/
def ofBits (b : Nat) : F32 :=
  let s := decide ((b / 2 ^ 31) % 2 = 1)
  let e := (b / 2 ^ 23) % 2 ^ 8
  let m := b % 2 ^ 23
  if e = 255 then (if m = 0 then inf s else nan)
  else if e = 0 then fin s m
  else fin s ((2 ^ 23 + m) * 2 ^ (e - 1))

end F32

/-! ## The matrix type and its operations -/

/-- The struct `Matrix`: the numbers of rows and columns and the contents as
one long slice. -/
structure Matrix where
  rows : Int
  columns : Int
  data : List F32
deriving DecidableEq

/-- The index expression `s[i]`: panics outside `[0, len(s))`. -/
def getIdx (s : List F32) (i : Int) : Option F32 :=
  if i < 0 then none else s[i.toNat]?

/-- The assignment `s[i] = v`: panics outside `[0, len(s))`. -/
def setIdx (s : List F32) (i : Int) (v : F32) : Option (List F32) :=
  if 0 ≤ i ∧ i < s.length then some (s.set i.toNat v) else none

/-- The slice expression `s[lo:hi]`: panics unless `0 ≤ lo ≤ hi ≤ len(s)`. -/
def slice (s : List F32) (lo hi : Int) : Option (List F32) :=
  if 0 ≤ lo ∧ lo ≤ hi ∧ hi ≤ s.length then
    some ((s.drop lo.toNat).take (hi.toNat - lo.toNat))
  else none

/-- The allocation `make([]float32, n)`: panics for a negative length. -/
def make (n : Int) : Option (List F32) :=
  if n < 0 then none else some (List.replicate n.toNat F32.zero)

/-- The counter values of `for i := 1; i <= n; i++`. -/
def countTo (n : Int) : List Int :=
  (List.range n.toNat).map (fun (i : Nat) => (i : Int) + 1)

/-- The function `findIndex`. -/
def findIndex (r c : Int) (A : Matrix) : Int :=
  (r - 1) * A.columns + c - 1

/-- The method `Set`. -/
def Matrix.Set (A : Matrix) (r c : Int) (val : F32) : Option Matrix :=
  (setIdx A.data (findIndex r c A) val).map (fun d => { A with data := d })

/-- The method `Get`. -/
def Matrix.Get (A : Matrix) (r c : Int) : Option F32 :=
  getIdx A.data (findIndex r c A)

/-- The method `Row`. -/
def Matrix.Row (A : Matrix) (n : Int) : Option (List F32) :=
  slice A.data (findIndex n 1 A) (findIndex n A.columns A + 1)

/-- The method `Column`: the loop fills `col[i - 1]` for `i` from 1 to
`rows`. -/
def Matrix.Column (A : Matrix) (n : Int) : Option (List F32) :=
  (make A.rows).bind fun col =>
    (countTo A.rows).foldlM
      (fun col i =>
        (A.Row i).bind fun row =>
          (getIdx row (n - 1)).bind fun x => setIdx col (i - 1) x)
      col

/-- The function `Zeros`, with the size `r * c` as the mathematical product:
the allocation of the code whenever the product fits an `int`
(`Wrapping.Zeros` is the function for every `r` and `c`). -/
def Zeros (r c : Int) : Option Matrix :=
  (make (r * c)).map (fun d => { rows := r, columns := c, data := d })

/-- The function `New`, with `r * c` as the mathematical product: the test of
the code whenever the product fits an `int`, in particular whenever it is the
length of a slice (`Wrapping.New` is the function for every `r` and `c`). -/
def New (r c : Int) (data : List F32) : Option Matrix :=
  if (data.length : Int) ≠ r * c then none
  else (Zeros r c).map (fun A => { A with data := data })

/-- The function `dotProduct`: the loop adds `a[i] * b[i]` to `total` for `i`
from 0 to `len(a) - 1`. -/
def dotProduct (a b : List F32) : Option F32 :=
  (List.range a.length).foldlM
    (fun total (i : Nat) =>
      (getIdx a (i : Int)).bind fun x =>
        (getIdx b (i : Int)).bind fun y => some (F32.add total (F32.mul x y)))
    F32.zero

/-- The function `Multiply`, allocating with `Zeros` above
(`Wrapping.Multiply` allocates with the `int` product). -/
def Multiply (A B : Matrix) : Option Matrix :=
  (Zeros A.rows B.columns).bind fun C =>
    (countTo C.rows).foldlM
      (fun C r =>
        (A.Row r).bind fun A_row =>
          (countTo C.columns).foldlM
            (fun C c =>
              (B.Column c).bind fun B_col =>
                (dotProduct A_row B_col).bind fun v => C.Set r c v)
            C)
      C

/-- The function `Add`, allocating with `Zeros` above. -/
def Add (A B : Matrix) : Option Matrix :=
  (Zeros A.rows A.columns).bind fun C =>
    (countTo A.rows).foldlM
      (fun C r =>
        (countTo A.columns).foldlM
          (fun C c =>
            (A.Get r c).bind fun x =>
              (B.Get r c).bind fun y => C.Set r c (F32.add x y))
          C)
      C

/-- The loop of `Identity`, `for ; i < len(data); i += n + 1 { data[i] = 1 }`,
run for at most `fuel` tests of the loop condition. -/
def identityLoop (n : Int) : Nat → Int → List F32 → Option (List F32)
  | 0, _, _ => none
  | fuel + 1, i, d =>
    if i < d.length then
      (setIdx d i F32.one).bind fun d1 => identityLoop n fuel (i + (n + 1)) d1
    else some d

/-- The function `Identity`, allocating with `Zeros` above and with the stride
as a mathematical integer (`Wrapping.Identity` has the `int` arithmetic).  With
a positive stride the loop tests its condition at most `len(data) + 1`
times. -/
def Identity (n : Int) : Option Matrix :=
  (Zeros n n).bind fun A =>
    (identityLoop n (A.data.length + 1) 0 A.data).map
      (fun d => { A with data := d })

/-- The method `Scalar`. -/
def Matrix.Scalar (m : Matrix) (a : F32) : Option Matrix :=
  (countTo m.rows).foldlM
    (fun m r =>
      (countTo m.columns).foldlM
        (fun m c => (m.Get r c).bind fun x => m.Set r c (F32.mul x a))
        m)
    m

/-- The invariant of the data model: non-negative dimensions and
`len(data) == rows * columns`. -/
def Matrix.WellFormed (A : Matrix) : Prop :=
  0 ≤ A.rows ∧ 0 ≤ A.columns ∧ (A.data.length : Int) = A.rows * A.columns

instance (A : Matrix) : Decidable A.WellFormed :=
  inferInstanceAs
    (Decidable (0 ≤ A.rows ∧ 0 ≤ A.columns ∧ (A.data.length : Int) = A.rows * A.columns))

/-- The sum over `k = 1..A.columns` of `A.Get(r, k) * B.Get(k, c)`, added up
from `0` in the order of `k`. -/
def sumProducts (A B : Matrix) (r c : Int) : Option F32 :=
  (countTo A.columns).foldlM
    (fun total k =>
      (A.Get r k).bind fun x =>
        (B.Get k c).bind fun y => some (F32.add total (F32.mul x y)))
    F32.zero

/-- The matrix has `R` rows, `N` columns and `R * N` cells. -/
def Matrix.HasShape (M : Matrix) (R N : Int) : Prop :=
  M.rows = R ∧ M.columns = N ∧ (M.data.length : Int) = R * N

/-- The `float32` constant written as the non-negative integer `n`. -/
def F32.ofNat (n : Nat) : F32 := F32.round false (n * 2 ^ 149) 1

/-- The method `Trans`: its body is empty, the receiver is left as it is. -/
def Matrix.Trans (m : Matrix) : Matrix := m

/-- The method `String`.  The buffer is the text written so far; `format`
stands for the call of `strconv.FormatFloat` on `float64(x)` with the format
byte `f`, precision `-1` and bit size `32`, a function of the standard
library. -/
def Matrix.String (format : F32 → String) (m : Matrix) : Option String :=
  (countTo m.rows).foldlM
    (fun bf r =>
      (countTo m.columns).foldlM
        (fun bf c =>
          (getIdx m.data (findIndex r c m)).map fun x =>
            (bf ++ format x) ++
              (if c = m.columns then (if r = m.rows then "]" else ",\n ") else ", "))
        bf)
    "["

/-- The text of row `r`: its formatted elements joined with a comma and a
space. -/
def rowText (format : F32 → String) (m : Matrix) (r : Int) : String :=
  ", ".intercalate ((countTo m.columns).map fun c => format ((m.Get r c).getD F32.nan))

/-- The bracketed text of a matrix: an opening bracket, the rows joined with a
comma, a newline and a space, and a closing bracket. -/
def matrixText (format : F32 → String) (m : Matrix) : String :=
  "[" ++ ",\n ".intercalate ((countTo m.rows).map fun r => rowText format m r) ++ "]"

/-- A formatter for small examples: the whole numbers `0` to `9` are rendered
as their decimal digit and every other value as a question mark. -/
def formatDigit (x : F32) : String :=
  match (List.range 10).find? (fun n => decide (x = F32.ofNat n)) with
  | some n => String.singleton (Char.ofNat (48 + n))
  | none => "?"

/-- The invariant `len(data) == rows * columns`. -/
def Matrix.LenInvariant (A : Matrix) : Prop :=
  (A.data.length : Int) = A.rows * A.columns

instance (A : Matrix) : Decidable A.LenInvariant :=
  inferInstanceAs (Decidable ((A.data.length : Int) = A.rows * A.columns))

/-- The matrix `T` is the mathematical transpose of `A`: the dimensions are
swapped and the element of `T` at `(c, r)` is the element of `A` at `(r, c)`. -/
def IsTranspose (T A : Matrix) : Prop :=
  T.rows = A.columns ∧ T.columns = A.rows ∧
    ∀ r c : Int, 1 ≤ r → r ≤ A.rows → 1 ≤ c → c ≤ A.columns → T.Get c r = A.Get r c

/-! ## The constructors and `Multiply` with the wrapping `int` of Go

The definitions above take the products `r * c` as mathematical integers.
The definitions below take them as Go does on a 64-bit platform, where an `int`
has 64 bits and arithmetic wraps around.  The two agree whenever the product
fits an `int`. -/

/-- The value of an `int` expression whose mathematical value is `x`: a
64-bit two-complement integer, so the results wrap around into
`[-2^63, 2^63)`. -/
def wrapInt (x : Int) : Int := (x + 2 ^ 63) % 2 ^ 64 - 2 ^ 63

namespace Wrapping

/-- The function `Zeros`, with the product `r * c` as an `int`. -/
def Zeros (r c : Int) : Option Matrix :=
  (make (wrapInt (r * c))).map (fun d => { rows := r, columns := c, data := d })

/-- The function `New`, with the product `r * c` as an `int`. -/
def New (r c : Int) (data : List F32) : Option Matrix :=
  if (data.length : Int) ≠ wrapInt (r * c) then none
  else (Zeros r c).map (fun A => { A with data := data })

/-- The loop of `Identity`, `for ; i < len(data); i += n + 1 { data[i] = 1 }`,
with `n + 1` and `i + (n + 1)` as `int`s, run for at most `fuel` tests of the
loop condition. -/
def identityLoop (n : Int) : Nat → Int → List F32 → Option (List F32)
  | 0, _, _ => none
  | fuel + 1, i, d =>
    if i < d.length then
      (setIdx d i F32.one).bind fun d1 =>
        identityLoop n fuel (wrapInt (i + wrapInt (n + 1))) d1
    else some d

/-- The function `Identity`, with `int` arithmetic.  A loop that returns tests
its condition at most `len(data) + 1` times. -/
def Identity (n : Int) : Option Matrix :=
  (Zeros n n).bind fun A =>
    (identityLoop n (A.data.length + 1) 0 A.data).map
      (fun d => { A with data := d })

/-- The function `Multiply`, with the product of the allocation as an `int`. -/
def Multiply (A B : Matrix) : Option Matrix :=
  (Zeros A.rows B.columns).bind fun C =>
    (countTo C.rows).foldlM
      (fun C r =>
        (A.Row r).bind fun A_row =>
          (countTo C.columns).foldlM
            (fun C c =>
              (B.Column c).bind fun B_col =>
                (dotProduct A_row B_col).bind fun v => C.Set r c v)
            C)
      C

end Wrapping

end Gmatrix

namespace Gmatrix

/-! ## Slices and the index mapping -/

theorem getIdx_of_bounds (s : List F32) (i : Int) (h0 : 0 ≤ i) (h1 : i < s.length) :
    ∃ x, getIdx s i = some x ∧ s[i.toNat]? = some x := by
  have hlt : i.toNat < s.length := by omega
  refine ⟨s[i.toNat], ?_, ?_⟩
  · simp [getIdx, not_lt.mpr h0, List.getElem?_eq_getElem hlt]
  · exact List.getElem?_eq_getElem hlt

theorem setIdx_of_bounds (s : List F32) (i : Int) (v : F32) (h0 : 0 ≤ i)
    (h1 : i < s.length) : setIdx s i v = some (s.set i.toNat v) := by
  simp [setIdx, h0, h1]

theorem getIdx_set_same (s : List F32) (i : Int) (v : F32) (h0 : 0 ≤ i)
    (h1 : i < s.length) : getIdx (s.set i.toNat v) i = some v := by
  have hlt : i.toNat < s.length := by omega
  simp [getIdx, not_lt.mpr h0, hlt]

theorem getIdx_set_other (s : List F32) (i j : Int) (v : F32) (h0 : 0 ≤ i)
    (hj : 0 ≤ j) (hne : i ≠ j) : getIdx (s.set i.toNat v) j = getIdx s j := by
  have hn : i.toNat ≠ j.toNat := by omega
  simp [getIdx, not_lt.mpr hj, List.getElem?_set_ne hn]

theorem findIndex_nonneg (A : Matrix) (r c : Int) (hr : 1 ≤ r) (hc : 1 ≤ c)
    (hN : 0 ≤ A.columns) : 0 ≤ findIndex r c A := by
  have h := mul_nonneg (sub_nonneg.mpr hr) hN
  unfold findIndex
  omega

theorem findIndex_lt (A : Matrix) (r c : Int) (hr : r ≤ A.rows) (hc1 : 1 ≤ c)
    (hc : c ≤ A.columns) : findIndex r c A < A.rows * A.columns := by
  have h := mul_nonneg (sub_nonneg.mpr hr) (le_trans (by decide : (0 : Int) ≤ 1) (le_trans hc1 hc))
  unfold findIndex
  nlinarith

theorem findIndex_inj (A : Matrix) (r c r1 c1 : Int) (hc1 : 1 ≤ c) (hc : c ≤ A.columns)
    (hd1 : 1 ≤ c1) (hd : c1 ≤ A.columns) (h : findIndex r c A = findIndex r1 c1 A) :
    r = r1 ∧ c = c1 := by
  unfold findIndex at h
  have hr : r = r1 := by
    rcases lt_trichotomy r r1 with hlt | heq | hgt
    · exfalso
      have : (r1 - r) * A.columns ≥ 1 * A.columns :=
        mul_le_mul_of_nonneg_right (by omega) (by omega)
      nlinarith
    · exact heq
    · exfalso
      have : (r - r1) * A.columns ≥ 1 * A.columns :=
        mul_le_mul_of_nonneg_right (by omega) (by omega)
      nlinarith
  subst hr
  exact ⟨rfl, by omega⟩

end Gmatrix

namespace Gmatrix

/-! ## `Get` and `Set` at a position of the grid -/

theorem Set_eq (A : Matrix) (r c : Int) (v : F32)
    (hlen : (A.data.length : Int) = A.rows * A.columns)
    (hr1 : 1 ≤ r) (hr : r ≤ A.rows) (hc1 : 1 ≤ c) (hc : c ≤ A.columns) :
    A.Set r c v = some { A with data := A.data.set (findIndex r c A).toNat v } := by
  have h0 := findIndex_nonneg A r c hr1 hc1 (by omega)
  have h1 := findIndex_lt A r c hr hc1 hc
  simp [Matrix.Set, setIdx_of_bounds A.data _ v h0 (by omega)]

theorem Get_isSome (A : Matrix) (r c : Int)
    (hlen : (A.data.length : Int) = A.rows * A.columns)
    (hr1 : 1 ≤ r) (hr : r ≤ A.rows) (hc1 : 1 ≤ c) (hc : c ≤ A.columns) :
    ∃ x, A.Get r c = some x ∧ A.data[(findIndex r c A).toNat]? = some x := by
  have h0 := findIndex_nonneg A r c hr1 hc1 (by omega)
  have h1 := findIndex_lt A r c hr hc1 hc
  exact getIdx_of_bounds A.data _ h0 (by omega)

theorem Get_Set_same (A : Matrix) (r c : Int) (v : F32)
    (hlen : (A.data.length : Int) = A.rows * A.columns)
    (hr1 : 1 ≤ r) (hr : r ≤ A.rows) (hc1 : 1 ≤ c) (hc : c ≤ A.columns) :
    Matrix.Get { A with data := A.data.set (findIndex r c A).toNat v } r c = some v := by
  have h0 := findIndex_nonneg A r c hr1 hc1 (by omega)
  have h1 := findIndex_lt A r c hr hc1 hc
  exact getIdx_set_same A.data _ v h0 (by omega)

theorem Get_Set_other (A : Matrix) (r c r1 c1 : Int) (v : F32)
    (hr1 : 1 ≤ r) (hc1 : 1 ≤ c) (hc : c ≤ A.columns)
    (hs1 : 1 ≤ r1) (hd1 : 1 ≤ c1) (hd : c1 ≤ A.columns) (hne : ¬ (r1 = r ∧ c1 = c)) :
    Matrix.Get { A with data := A.data.set (findIndex r c A).toNat v } r1 c1 = A.Get r1 c1 := by
  have h0 := findIndex_nonneg A r c hr1 hc1 (by omega)
  have h1 := findIndex_nonneg A r1 c1 hs1 hd1 (by omega)
  have hneq : findIndex r c A ≠ findIndex r1 c1 A := by
    intro h
    have := findIndex_inj A r c r1 c1 hc1 hc hd1 hd h
    exact hne ⟨this.1.symm, this.2.symm⟩
  exact getIdx_set_other A.data _ _ v h0 h1 hneq

theorem Zeros_eq (r c : Int) (h : 0 ≤ r * c) :
    Zeros r c = some ⟨r, c, List.replicate (r * c).toNat F32.zero⟩ := by
  simp [Zeros, make, not_lt.mpr h]

theorem New_of_length (r c : Int) (values : List F32)
    (h : (values.length : Int) = r * c) : New r c values = some ⟨r, c, values⟩ := by
  have h0 : 0 ≤ r * c := by omega
  simp [New, h, Zeros_eq r c h0]

/-- Claim C2: for `r, c ≥ 1`, `len(values) == r*c` and `1 ≤ i ≤ r`,
`1 ≤ j ≤ c`, `New(r, c, values).Get(i, j)` returns `values[(i-1)*c + (j-1)]`. -/
theorem New_Get_row_major (r c : Int) (values : List F32) (_hr : 1 ≤ r) (hc : 1 ≤ c)
    (hlen : (values.length : Int) = r * c) (i j : Int)
    (hi1 : 1 ≤ i) (hi : i ≤ r) (hj1 : 1 ≤ j) (hj : j ≤ c) :
    ∃ A x, New r c values = some A ∧ A.Get i j = some x ∧
      0 ≤ (i - 1) * c + (j - 1) ∧ (i - 1) * c + (j - 1) < values.length ∧
      values[((i - 1) * c + (j - 1)).toNat]? = some x := by
  have hnew := New_of_length r c values hlen
  obtain ⟨x, hx, hx2⟩ := Get_isSome ⟨r, c, values⟩ i j hlen hi1 hi hj1 hj
  have h0 := findIndex_nonneg ⟨r, c, values⟩ i j hi1 hj1 (by simp; omega)
  have h1 := findIndex_lt ⟨r, c, values⟩ i j hi hj1 hj
  have he : findIndex i j ⟨r, c, values⟩ = (i - 1) * c + (j - 1) := by
    simp [findIndex]; ring
  rw [he] at h0 h1 hx2
  exact ⟨_, x, hnew, hx, h0, by simp at h1; omega, hx2⟩

theorem New_Get_row_major_witness :
    ∃ A x, New 2 3 [F32.ofNat 1, F32.ofNat 2, F32.ofNat 3, F32.ofNat 4, F32.ofNat 5,
        F32.ofNat 6] = some A ∧ A.Get 2 1 = some x ∧
      0 ≤ ((2 : Int) - 1) * 3 + (1 - 1) ∧
      ((2 : Int) - 1) * 3 + (1 - 1) <
        [F32.ofNat 1, F32.ofNat 2, F32.ofNat 3, F32.ofNat 4, F32.ofNat 5, F32.ofNat 6].length ∧
      [F32.ofNat 1, F32.ofNat 2, F32.ofNat 3, F32.ofNat 4, F32.ofNat 5,
        F32.ofNat 6][(((2 : Int) - 1) * 3 + (1 - 1)).toNat]? = some x :=
  New_Get_row_major 2 3 _ (by decide) (by decide) (by decide) 2 1 (by decide) (by decide)
    (by decide) (by decide)

/-- Claim C3: on a matrix with `len(data) == rows*columns`, at a position
`1 ≤ r ≤ rows`, `1 ≤ c ≤ columns`, `Set(r, c, v)` followed by `Get(r, c)`
returns `v`. -/
theorem Set_then_Get (A : Matrix) (r c : Int) (v : F32)
    (hlen : (A.data.length : Int) = A.rows * A.columns)
    (hr1 : 1 ≤ r) (hr : r ≤ A.rows) (hc1 : 1 ≤ c) (hc : c ≤ A.columns) :
    ∃ A1, A.Set r c v = some A1 ∧ A1.Get r c = some v :=
  ⟨_, Set_eq A r c v hlen hr1 hr hc1 hc, Get_Set_same A r c v hlen hr1 hr hc1 hc⟩

theorem Set_then_Get_witness :
    ∃ A1, Matrix.Set ⟨2, 3, [F32.ofNat 1, F32.ofNat 2, F32.ofNat 3, F32.ofNat 4, F32.ofNat 5,
        F32.ofNat 6]⟩ 1 2 (F32.ofBits 0x40533333) = some A1 ∧
      A1.Get 1 2 = some (F32.ofBits 0x40533333) :=
  Set_then_Get ⟨2, 3, _⟩ 1 2 _ (by decide) (by decide) (by decide) (by decide) (by decide)

theorem Zeros_entries (rows columns : Int) (hrows : 0 ≤ rows) (hcols : 0 ≤ columns) :
    ∃ Z, Zeros rows columns = some Z ∧ Z.HasShape rows columns ∧
      ∀ r c : Int, 1 ≤ r → r ≤ rows → 1 ≤ c → c ≤ columns → Z.Get r c = some F32.zero := by
  have h0 : 0 ≤ rows * columns := mul_nonneg hrows hcols
  refine ⟨_, Zeros_eq rows columns h0, ⟨rfl, rfl, by simp; omega⟩, ?_⟩
  intro r c hr1 hr hc1 hc
  obtain ⟨x, hx, hx2⟩ := Get_isSome ⟨rows, columns, List.replicate (rows * columns).toNat F32.zero⟩
    r c (by simp; omega) hr1 hr hc1 hc
  rw [hx]
  simp only [List.getElem?_replicate] at hx2
  split at hx2
  · exact hx2.symm ▸ rfl
  · exact absurd hx2 (by simp)

end Gmatrix

namespace Gmatrix

/-! ## The loop of `Identity` -/

theorem identityLoop_spec (n : Int) (hn : 0 ≤ n) :
    ∀ (fuel : Nat) (i : Int) (d : List F32), 0 ≤ i → 1 ≤ fuel →
      (d.length : Int) - i + 1 ≤ fuel →
      ∃ d1, identityLoop n fuel i d = some d1 ∧ d1.length = d.length ∧
        ∀ p : Int, 0 ≤ p →
          (∀ m : Nat, p = i + m * (n + 1) → p < d.length → getIdx d1 p = some F32.one) ∧
          ((∀ m : Nat, p ≠ i + m * (n + 1)) → getIdx d1 p = getIdx d p) := by
  intro fuel
  induction fuel with
  | zero => intro i d _ h1 _; omega
  | succ fuel ih =>
    intro i d hi _ hfuel
    by_cases hlt : i < d.length
    · have hset := setIdx_of_bounds d i F32.one hi hlt
      obtain ⟨d1, hd1, hlen1, hp1⟩ := ih (i + (n + 1)) (d.set i.toNat F32.one) (by omega)
        (by omega) (by simp only [List.length_set]; push_cast at hfuel ⊢; omega)
      refine ⟨d1, ?_, ?_, ?_⟩
      · simp [identityLoop, hlt, hset, hd1]
      · simpa using hlen1
      · intro p hp
        obtain ⟨hA, hB⟩ := hp1 p hp
        constructor
        · intro m hm hpl
          rcases Nat.eq_zero_or_pos m with hm0 | hmpos
          · subst hm0
            have hpi : p = i := by simpa using hm
            subst hpi
            by_cases hex : ∃ m1 : Nat, p = p + (n + 1) + m1 * (n + 1)
            · obtain ⟨m1, hm1⟩ := hex
              exact hA m1 hm1 (by simpa using hpl)
            · rw [hB (fun m1 h => hex ⟨m1, h⟩)]
              exact getIdx_set_same d p F32.one hi hlt
          · obtain ⟨m1, rfl⟩ : ∃ m1, m = m1 + 1 := ⟨m - 1, by omega⟩
            refine hA m1 ?_ (by simpa using hpl)
            rw [hm]; push_cast; ring
        · intro hall
          have hne : i ≠ p := by
            intro h
            exact hall 0 (by simp [h])
          rw [hB (fun m1 h => hall (m1 + 1) (by rw [h]; push_cast; ring))]
          exact getIdx_set_other d i p F32.one hi hp hne
    · refine ⟨d, by simp [identityLoop, hlt], rfl, ?_⟩
      intro p hp
      exact ⟨fun m hm hpl => by
        have : (0 : Int) ≤ m * (n + 1) := mul_nonneg (by omega) (by omega)
        omega, fun _ => rfl⟩

theorem diagonal_index (n r c : Int) (hn : 0 ≤ n) (hr1 : 1 ≤ r) (hr : r ≤ n) (hc1 : 1 ≤ c)
    (hc : c ≤ n) (m : Nat) (h : (r - 1) * n + c - 1 = 0 + m * (n + 1)) : r = c := by
  rcases lt_trichotomy ((m : Int) - (r - 1)) 0 with hlt | heq | hgt
  · exfalso
    have h1 : ((r - 1) - m) * (n + 1) ≥ 1 * (n + 1) :=
      mul_le_mul_of_nonneg_right (by omega) (by omega)
    nlinarith
  · have hm : (m : Int) = r - 1 := by omega
    rw [hm] at h
    nlinarith
  · exfalso
    have h1 : ((m : Int) - (r - 1)) * (n + 1) ≥ 1 * (n + 1) :=
      mul_le_mul_of_nonneg_right (by omega) (by omega)
    nlinarith

theorem Identity_entries (n : Int) (hn : 0 ≤ n) :
    ∃ I, Identity n = some I ∧ I.rows = n ∧ I.columns = n ∧
      (I.data.length : Int) = n * n ∧
      ∀ i j : Int, 1 ≤ i → i ≤ n → 1 ≤ j → j ≤ n →
        I.Get i j = some (if i = j then F32.one else F32.zero) := by
  have h0 : 0 ≤ n * n := mul_nonneg hn hn
  obtain ⟨d1, hd1, hlen1, hp1⟩ := identityLoop_spec n hn
    ((List.replicate (n * n).toNat F32.zero).length + 1) 0
    (List.replicate (n * n).toNat F32.zero) (le_refl 0) (by omega) (by push_cast; omega)
  have hlen : (d1.length : Int) = n * n := by
    rw [hlen1]; simp; omega
  refine ⟨⟨n, n, d1⟩, ?_, rfl, rfl, hlen, ?_⟩
  · simp only [Identity, Zeros_eq n n h0, Option.some_bind]
    rw [hd1]; rfl
  · intro i j hi1 hi hj1 hj
    have hnn := findIndex_nonneg ⟨n, n, d1⟩ i j hi1 hj1 hn
    have hlt := findIndex_lt ⟨n, n, d1⟩ i j hi hj1 hj
    obtain ⟨hA, hB⟩ := hp1 (findIndex i j ⟨n, n, d1⟩) hnn
    have hlt0 : findIndex i j ⟨n, n, d1⟩ <
        ((List.replicate (n * n).toNat F32.zero).length : Int) := by
      simp at hlt ⊢; omega
    by_cases hij : i = j
    · subst hij
      simp only [if_true, Matrix.Get]
      refine hA (i - 1).toNat ?_ hlt0
      have : (((i - 1).toNat : Nat) : Int) = i - 1 := Int.toNat_of_nonneg (by omega)
      rw [this]; simp only [findIndex]; ring
    · simp only [if_neg hij, Matrix.Get]
      rw [hB (fun m hm => hij (diagonal_index n i j hn hi1 hi hj1 hj m hm))]
      obtain ⟨x, hx, hx2⟩ := getIdx_of_bounds _ _ hnn hlt0
      rw [hx]
      simp only [List.getElem?_replicate] at hx2
      split at hx2
      · exact hx2.symm ▸ rfl
      · exact absurd hx2 (by simp)

end Gmatrix

namespace Gmatrix

/-! ## Loops that fill a matrix cell by cell -/

theorem mem_countTo (n c : Int) : c ∈ countTo n ↔ 1 ≤ c ∧ c ≤ n := by
  simp only [countTo, List.mem_map, List.mem_range]
  constructor
  · rintro ⟨i, hi, rfl⟩
    omega
  · rintro ⟨h1, h2⟩
    exact ⟨(c - 1).toNat, by omega, by omega⟩

theorem nodup_countTo (n : Int) : (countTo n).Nodup := by
  have hinj : Function.Injective (fun i : Nat => (i : Int) + 1) := by
    intro a b h
    simpa using h
  exact (List.nodup_range n.toNat).map hinj

theorem HasShape_set (M : Matrix) (R N : Int) (h : M.HasShape R N) (i : Nat) (v : F32) :
    Matrix.HasShape { M with data := M.data.set i v } R N := by
  obtain ⟨h1, h2, h3⟩ := h
  exact ⟨h1, h2, by simpa using h3⟩

theorem fill_columns (f : Matrix → Int → Option Matrix) (r : Int) (val : Int → F32)
    (R N : Int) (hr1 : 1 ≤ r) (hr : r ≤ R) :
    ∀ (cs : List Int) (M : Matrix), cs.Nodup → (∀ c ∈ cs, 1 ≤ c ∧ c ≤ N) →
      M.HasShape R N →
      (∀ (M1 : Matrix) (c : Int), c ∈ cs → M1.HasShape R N → M1.Get r c = M.Get r c →
        f M1 c = M1.Set r c (val c)) →
      ∃ M2, cs.foldlM f M = some M2 ∧ M2.HasShape R N ∧
        (∀ c ∈ cs, M2.Get r c = some (val c)) ∧
        (∀ r1 c1 : Int, 1 ≤ r1 → 1 ≤ c1 → c1 ≤ N → ¬ (r1 = r ∧ c1 ∈ cs) →
          M2.Get r1 c1 = M.Get r1 c1) := by
  intro cs
  induction cs with
  | nil =>
    intro M _ _ hM _
    exact ⟨M, rfl, hM, fun c hc => absurd hc (List.not_mem_nil c), fun _ _ _ _ _ _ => rfl⟩
  | cons c t ih =>
    intro M hnd hcs hM hf
    obtain ⟨hct, hndt⟩ := List.nodup_cons.mp hnd
    obtain ⟨hc1, hc⟩ := hcs c (List.mem_cons_self c t)
    obtain ⟨hMr, hMc, hMl⟩ := hM
    have hlen : (M.data.length : Int) = M.rows * M.columns := by rw [hMl, hMr, hMc]
    have hstep : f M c = some { M with data := M.data.set (findIndex r c M).toNat (val c) } := by
      rw [hf M c (List.mem_cons_self c t) ⟨hMr, hMc, hMl⟩ rfl]
      exact Set_eq M r c (val c) hlen hr1 (by omega) hc1 (by omega)
    have hM1 := HasShape_set M R N ⟨hMr, hMc, hMl⟩ (findIndex r c M).toNat (val c)
    have hother : ∀ r1 c1 : Int, 1 ≤ r1 → 1 ≤ c1 → c1 ≤ N → ¬ (r1 = r ∧ c1 = c) →
        Matrix.Get { M with data := M.data.set (findIndex r c M).toNat (val c) } r1 c1 =
          M.Get r1 c1 := fun r1 c1 h1 h2 h3 h4 =>
      Get_Set_other M r c r1 c1 (val c) hr1 hc1 (by omega) h1 h2 (by omega) h4
    obtain ⟨M2, hM2, hsh, hin, hout⟩ := ih _ hndt
      (fun c1 h => hcs c1 (List.mem_cons_of_mem c h)) hM1
      (fun M1 c1 hc1t hM1s hget => by
        obtain ⟨hd1, hd⟩ := hcs c1 (List.mem_cons_of_mem c hc1t)
        refine hf M1 c1 (List.mem_cons_of_mem c hc1t) hM1s ?_
        rw [hget]
        exact hother r c1 hr1 hd1 hd (fun h => hct (h.2 ▸ hc1t)))
    refine ⟨M2, ?_, hsh, ?_, ?_⟩
    · simp only [List.foldlM_cons, hstep]
      exact hM2
    · intro c1 hc1m
      rcases List.mem_cons.mp hc1m with rfl | hmem
      · rw [hout r c1 hr1 hc1 hc (fun h => hct h.2)]
        exact Get_Set_same M r c1 (val c1) hlen hr1 (by omega) hc1 (by omega)
      · exact hin c1 hmem
    · intro r1 c1 h1 h2 h3 h4
      rw [hout r1 c1 h1 h2 h3 (fun h => h4 ⟨h.1, List.mem_cons_of_mem c h.2⟩)]
      exact hother r1 c1 h1 h2 h3 (fun h => h4 ⟨h.1, h.2 ▸ List.mem_cons_self c t⟩)

theorem fill_rows (g : Matrix → Int → Option Matrix) (val : Int → Int → F32) (R N : Int) :
    ∀ (rs : List Int) (M : Matrix), rs.Nodup → (∀ r ∈ rs, 1 ≤ r ∧ r ≤ R) →
      M.HasShape R N →
      (∀ (M1 : Matrix) (r : Int), r ∈ rs → M1.HasShape R N →
        (∀ c : Int, 1 ≤ c → c ≤ N → M1.Get r c = M.Get r c) →
        ∃ M2, g M1 r = some M2 ∧ M2.HasShape R N ∧
          (∀ c : Int, 1 ≤ c → c ≤ N → M2.Get r c = some (val r c)) ∧
          (∀ r1 c1 : Int, 1 ≤ r1 → 1 ≤ c1 → c1 ≤ N → r1 ≠ r →
            M2.Get r1 c1 = M1.Get r1 c1)) →
      ∃ M2, rs.foldlM g M = some M2 ∧ M2.HasShape R N ∧
        (∀ r ∈ rs, ∀ c : Int, 1 ≤ c → c ≤ N → M2.Get r c = some (val r c)) ∧
        (∀ r1 c1 : Int, 1 ≤ r1 → 1 ≤ c1 → c1 ≤ N → r1 ∉ rs →
          M2.Get r1 c1 = M.Get r1 c1) := by
  intro rs
  induction rs with
  | nil =>
    intro M _ _ hM _
    exact ⟨M, rfl, hM, fun r hr => absurd hr (List.not_mem_nil r), fun _ _ _ _ _ _ => rfl⟩
  | cons r t ih =>
    intro M hnd hrs hM hg
    obtain ⟨hrt, hndt⟩ := List.nodup_cons.mp hnd
    obtain ⟨hr1, _⟩ := hrs r (List.mem_cons_self r t)
    obtain ⟨M1, hM1, hsh1, hin1, hout1⟩ := hg M r (List.mem_cons_self r t) hM (fun _ _ _ => rfl)
    obtain ⟨M2, hM2, hsh2, hin2, hout2⟩ := ih M1 hndt
      (fun r1 h => hrs r1 (List.mem_cons_of_mem r h)) hsh1
      (fun M3 r1 hr1t hM3 hget => by
        have hs1 := (hrs r1 (List.mem_cons_of_mem r hr1t)).1
        refine hg M3 r1 (List.mem_cons_of_mem r hr1t) hM3 (fun c hc1 hc => ?_)
        rw [hget c hc1 hc]
        exact hout1 r1 c hs1 hc1 hc (fun h => hrt (h ▸ hr1t)))
    refine ⟨M2, ?_, hsh2, ?_, ?_⟩
    · simp only [List.foldlM_cons, hM1]
      exact hM2
    · intro r1 hr1m c hc1 hc
      rcases List.mem_cons.mp hr1m with rfl | hmem
      · rw [hout2 r1 c hr1 hc1 hc hrt]
        exact hin1 c hc1 hc
      · exact hin2 r1 hmem c hc1 hc
    · intro r1 c1 h1 h2 h3 h4
      rw [hout2 r1 c1 h1 h2 h3 (fun h => h4 (List.mem_cons_of_mem r h))]
      exact hout1 r1 c1 h1 h2 h3 (fun h => h4 (h ▸ List.mem_cons_self r t))

/-- Two nested counted loops that store `val r c` at every cell `(r, c)`,
where the body at `(r, c)` may read the cell it is about to overwrite. -/
theorem fill_grid (g : Matrix → Int → Option Matrix)
    (body : Int → Matrix → Int → Option Matrix) (val : Int → Int → F32)
    (R N : Int) (M : Matrix) (hM : M.HasShape R N)
    (hg : ∀ (M1 : Matrix) (r : Int), 1 ≤ r → r ≤ R → M1.HasShape R N →
      g M1 r = (countTo N).foldlM (body r) M1)
    (hbody : ∀ (M1 : Matrix) (r c : Int), 1 ≤ r → r ≤ R → 1 ≤ c → c ≤ N →
      M1.HasShape R N → M1.Get r c = M.Get r c → body r M1 c = M1.Set r c (val r c)) :
    ∃ M2, (countTo R).foldlM g M = some M2 ∧ M2.HasShape R N ∧
      ∀ r c : Int, 1 ≤ r → r ≤ R → 1 ≤ c → c ≤ N → M2.Get r c = some (val r c) := by
  obtain ⟨M2, hM2, hsh, hin, _⟩ := fill_rows g val R N (countTo R) M (nodup_countTo R)
    (fun r hr => (mem_countTo R r).mp hr) hM
    (fun M1 r hr hM1 hget => by
      obtain ⟨hr1, hrR⟩ := (mem_countTo R r).mp hr
      obtain ⟨M3, hM3, hsh3, hin3, hout3⟩ := fill_columns (body r) r (val r) R N hr1 hrR
        (countTo N) M1 (nodup_countTo N) (fun c hc => (mem_countTo N c).mp hc) hM1
        (fun M4 c hc hM4 hget4 => by
          obtain ⟨hc1, hcN⟩ := (mem_countTo N c).mp hc
          exact hbody M4 r c hr1 hrR hc1 hcN hM4 (by rw [hget4, hget c hc1 hcN]))
      rw [hg M1 r hr1 hrR hM1]
      exact ⟨M3, hM3, hsh3, fun c hc1 hc => hin3 c ((mem_countTo N c).mpr ⟨hc1, hc⟩),
        fun r1 c1 h1 h2 h3 h4 => hout3 r1 c1 h1 h2 h3 (fun h => h4 h.1)⟩)
  exact ⟨M2, hM2, hsh, fun r c hr1 hr hc1 hc =>
    hin r ((mem_countTo R r).mpr ⟨hr1, hr⟩) c hc1 hc⟩

end Gmatrix

namespace Gmatrix

/-! ## `Add` and `Scalar` -/

theorem Zeros_HasShape (r c : Int) (h : 0 ≤ r * c) :
    Matrix.HasShape ⟨r, c, List.replicate (r * c).toNat F32.zero⟩ r c :=
  ⟨rfl, rfl, by simp; omega⟩

theorem Add_entries (A B : Matrix) (hA3 : (A.data.length : Int) = A.rows * A.columns)
    (hB3 : (B.data.length : Int) = B.rows * B.columns)
    (hrows : A.rows = B.rows) (hcols : A.columns = B.columns) :
    ∃ C, Add A B = some C ∧ C.HasShape A.rows A.columns ∧
      ∀ r c : Int, 1 ≤ r → r ≤ A.rows → 1 ≤ c → c ≤ A.columns →
        ∃ x y, A.Get r c = some x ∧ B.Get r c = some y ∧
          C.Get r c = some (F32.add x y) := by
  have h0 : 0 ≤ A.rows * A.columns := by omega
  obtain ⟨C, hC, hsh, hget⟩ := fill_grid
    (fun C r => (countTo A.columns).foldlM
      (fun C c => (A.Get r c).bind fun x => (B.Get r c).bind fun y => C.Set r c (F32.add x y)) C)
    (fun r C c => (A.Get r c).bind fun x => (B.Get r c).bind fun y => C.Set r c (F32.add x y))
    (fun r c => F32.add ((A.Get r c).getD F32.nan) ((B.Get r c).getD F32.nan))
    A.rows A.columns _ (Zeros_HasShape A.rows A.columns h0)
    (fun _ _ _ _ _ => rfl)
    (fun M1 r c hr1 hr hc1 hc _ _ => by
      obtain ⟨x, hx, _⟩ := Get_isSome A r c hA3 hr1 hr hc1 hc
      obtain ⟨y, hy, _⟩ := Get_isSome B r c hB3 hr1 (by omega) hc1 (by omega)
      simp [hx, hy])
  refine ⟨C, ?_, hsh, ?_⟩
  · simp only [Add, Zeros_eq A.rows A.columns h0, Option.some_bind]
    exact hC
  · intro r c hr1 hr hc1 hc
    obtain ⟨x, hx, _⟩ := Get_isSome A r c hA3 hr1 hr hc1 hc
    obtain ⟨y, hy, _⟩ := Get_isSome B r c hB3 hr1 (by omega) hc1 (by omega)
    refine ⟨x, y, hx, hy, ?_⟩
    rw [hget r c hr1 hr hc1 hc, hx, hy]
    rfl

theorem Scalar_entries (A : Matrix) (k : F32)
    (hA3 : (A.data.length : Int) = A.rows * A.columns) :
    ∃ A1, A.Scalar k = some A1 ∧ A1.HasShape A.rows A.columns ∧
      ∀ r c : Int, 1 ≤ r → r ≤ A.rows → 1 ≤ c → c ≤ A.columns →
        ∃ x, A.Get r c = some x ∧ A1.Get r c = some (F32.mul x k) := by
  obtain ⟨A1, hA1, hsh, hget⟩ := fill_grid
    (fun m r => (countTo m.columns).foldlM
      (fun m c => (m.Get r c).bind fun x => m.Set r c (F32.mul x k)) m)
    (fun r m c => (m.Get r c).bind fun x => m.Set r c (F32.mul x k))
    (fun r c => F32.mul ((A.Get r c).getD F32.nan) k)
    A.rows A.columns A ⟨rfl, rfl, hA3⟩
    (fun M1 r _ _ hM1 => by simp only [hM1.2.1])
    (fun M1 r c hr1 hr hc1 hc _ hsame => by
      obtain ⟨x, hx, _⟩ := Get_isSome A r c hA3 hr1 hr hc1 hc
      simp [hsame, hx])
  refine ⟨A1, hA1, hsh, ?_⟩
  intro r c hr1 hr hc1 hc
  obtain ⟨x, hx, _⟩ := Get_isSome A r c hA3 hr1 hr hc1 hc
  refine ⟨x, hx, ?_⟩
  rw [hget r c hr1 hr hc1 hc, hx]
  rfl

end Gmatrix

namespace Gmatrix

/-! ## `Row`, `Column` and `dotProduct` -/

theorem Row_entries (A : Matrix) (n : Int)
    (hlen : (A.data.length : Int) = A.rows * A.columns) (hN : 0 ≤ A.columns)
    (hn1 : 1 ≤ n) (hn : n ≤ A.rows) :
    ∃ row, A.Row n = some row ∧ (row.length : Int) = A.columns ∧
      ∀ k : Int, 1 ≤ k → k ≤ A.columns → getIdx row (k - 1) = A.Get n k := by
  have hlo : findIndex n 1 A = (n - 1) * A.columns := by unfold findIndex; ring
  have hhi : findIndex n A.columns A + 1 = (n - 1) * A.columns + A.columns := by
    unfold findIndex; ring
  have h0 : 0 ≤ (n - 1) * A.columns := mul_nonneg (by omega) hN
  have h1 : (n - 1) * A.columns + A.columns ≤ A.rows * A.columns := by
    have := mul_nonneg (sub_nonneg.mpr hn) hN
    nlinarith
  refine ⟨(A.data.drop ((n - 1) * A.columns).toNat).take
    (((n - 1) * A.columns + A.columns).toNat - ((n - 1) * A.columns).toNat), ?_, ?_, ?_⟩
  · unfold Matrix.Row
    rw [hlo, hhi]
    unfold slice
    rw [if_pos ⟨h0, by omega, by omega⟩]
  · rw [List.length_take, List.length_drop]
    omega
  · intro k hk1 hk
    unfold Matrix.Get getIdx
    have hf : findIndex n k A = (n - 1) * A.columns + (k - 1) := by unfold findIndex; ring
    rw [hf, if_neg (by omega), if_neg (by omega),
      List.getElem?_take_of_lt (by omega), List.getElem?_drop]
    congr 1
    omega

theorem fill_list (f : List F32 → Int → Option (List F32)) (val : Int → F32) (L : Int) :
    ∀ (is : List Int) (col : List F32), is.Nodup → (∀ i ∈ is, 1 ≤ i ∧ i ≤ L) →
      (col.length : Int) = L →
      (∀ (col1 : List F32) (i : Int), i ∈ is → (col1.length : Int) = L →
        f col1 i = setIdx col1 (i - 1) (val i)) →
      ∃ col2, is.foldlM f col = some col2 ∧ (col2.length : Int) = L ∧
        (∀ i ∈ is, getIdx col2 (i - 1) = some (val i)) ∧
        (∀ j : Int, 1 ≤ j → j ∉ is → getIdx col2 (j - 1) = getIdx col (j - 1)) := by
  intro is
  induction is with
  | nil =>
    intro col _ _ hcol _
    exact ⟨col, rfl, hcol, fun i hi => absurd hi (List.not_mem_nil i), fun _ _ _ => rfl⟩
  | cons i t ih =>
    intro col hnd his hcol hf
    obtain ⟨hit, hndt⟩ := List.nodup_cons.mp hnd
    obtain ⟨hi1, hi⟩ := his i (List.mem_cons_self i t)
    have hstep : f col i = some (col.set (i - 1).toNat (val i)) := by
      rw [hf col i (List.mem_cons_self i t) hcol]
      exact setIdx_of_bounds col (i - 1) (val i) (by omega) (by omega)
    obtain ⟨col2, hcol2, hlen2, hin, hout⟩ := ih (col.set (i - 1).toNat (val i)) hndt
      (fun j h => his j (List.mem_cons_of_mem i h)) (by simpa using hcol)
      (fun col1 j hj hl => hf col1 j (List.mem_cons_of_mem i hj) hl)
    refine ⟨col2, ?_, hlen2, ?_, ?_⟩
    · simp only [List.foldlM_cons, hstep]
      exact hcol2
    · intro j hj
      rcases List.mem_cons.mp hj with rfl | hmem
      · rw [hout j hi1 hit]
        exact getIdx_set_same col (j - 1) (val j) (by omega) (by omega)
      · exact hin j hmem
    · intro j hj1 hj
      rw [hout j hj1 (fun h => hj (List.mem_cons_of_mem i h))]
      exact getIdx_set_other col (i - 1) (j - 1) (val i) (by omega) (by omega)
        (fun h => hj (by
          have : j = i := by omega
          exact this ▸ List.mem_cons_self i t))

theorem Column_entries (B : Matrix) (c : Int)
    (hlen : (B.data.length : Int) = B.rows * B.columns) (hR : 0 ≤ B.rows)
    (hc1 : 1 ≤ c) (hc : c ≤ B.columns) :
    ∃ col, B.Column c = some col ∧ (col.length : Int) = B.rows ∧
      ∀ i : Int, 1 ≤ i → i ≤ B.rows → getIdx col (i - 1) = B.Get i c := by
  obtain ⟨col, hcol, hl, hin, _⟩ := fill_list
    (fun col i => (B.Row i).bind fun row => (getIdx row (c - 1)).bind fun x =>
      setIdx col (i - 1) x)
    (fun i => (B.Get i c).getD F32.nan) B.rows (countTo B.rows)
    (List.replicate B.rows.toNat F32.zero) (nodup_countTo B.rows)
    (fun i hi => (mem_countTo B.rows i).mp hi) (by simp; omega)
    (fun col1 i hi _ => by
      obtain ⟨hi1, hiR⟩ := (mem_countTo B.rows i).mp hi
      obtain ⟨row, hrow, _, hget⟩ := Row_entries B i hlen (by omega) hi1 hiR
      obtain ⟨x, hx, _⟩ := Get_isSome B i c hlen hi1 hiR hc1 hc
      simp [hrow, hget c hc1 hc, hx])
  refine ⟨col, ?_, hl, ?_⟩
  · simp only [Matrix.Column, make, if_neg (not_lt.mpr hR), Option.some_bind]
    exact hcol
  · intro i hi1 hi
    obtain ⟨x, hx, _⟩ := Get_isSome B i c hlen hi1 hi hc1 hc
    rw [hin i ((mem_countTo B.rows i).mpr ⟨hi1, hi⟩), hx]
    rfl

theorem foldlM_congr_mem {α β : Type} (f g : β → α → Option β) :
    ∀ (l : List α) (t : β), (∀ x ∈ l, ∀ s, f s x = g s x) → l.foldlM f t = l.foldlM g t := by
  intro l
  induction l with
  | nil => intro t _; rfl
  | cons x xs ih =>
    intro t h
    simp only [List.foldlM_cons, h x (List.mem_cons_self x xs) t]
    cases g t x with
    | none => rfl
    | some s => exact ih s (fun y hy => h y (List.mem_cons_of_mem x hy))

theorem foldlM_isSome {α β : Type} (f : β → α → Option β) :
    ∀ (l : List α) (t : β), (∀ x ∈ l, ∀ s, ∃ s1, f s x = some s1) →
      ∃ t1, l.foldlM f t = some t1 := by
  intro l
  induction l with
  | nil => intro t _; exact ⟨t, rfl⟩
  | cons x xs ih =>
    intro t h
    obtain ⟨s1, hs1⟩ := h x (List.mem_cons_self x xs) t
    obtain ⟨t1, ht1⟩ := ih s1 (fun y hy => h y (List.mem_cons_of_mem x hy))
    exact ⟨t1, by simp only [List.foldlM_cons, hs1]; exact ht1⟩

theorem dotProduct_eq_sumProducts (A B : Matrix) (r c : Int) (row col : List F32)
    (hlen : (row.length : Int) = A.columns)
    (hrow : ∀ k : Int, 1 ≤ k → k ≤ A.columns → getIdx row (k - 1) = A.Get r k)
    (hcol : ∀ k : Int, 1 ≤ k → k ≤ A.columns → getIdx col (k - 1) = B.Get k c) :
    dotProduct row col = sumProducts A B r c := by
  unfold dotProduct sumProducts countTo
  rw [List.foldlM_map]
  have hn : A.columns.toNat = row.length := by omega
  rw [hn]
  refine foldlM_congr_mem _ _ _ _ (fun i hi s => ?_)
  have hi1 := List.mem_range.mp hi
  have e : ((i : Int) + 1) - 1 = i := by ring
  have h1 := hrow (i + 1) (by omega) (by omega)
  have h2 := hcol (i + 1) (by omega) (by omega)
  rw [e] at h1 h2
  rw [h1, h2]

theorem sumProducts_isSome (A B : Matrix) (r c : Int)
    (hA : ∀ k : Int, 1 ≤ k → k ≤ A.columns → ∃ x, A.Get r k = some x)
    (hB : ∀ k : Int, 1 ≤ k → k ≤ A.columns → ∃ y, B.Get k c = some y) :
    ∃ v, sumProducts A B r c = some v := by
  unfold sumProducts
  refine foldlM_isSome _ _ _ (fun k hk s => ?_)
  obtain ⟨hk1, hkN⟩ := (mem_countTo A.columns k).mp hk
  obtain ⟨x, hx⟩ := hA k hk1 hkN
  obtain ⟨y, hy⟩ := hB k hk1 hkN
  exact ⟨_, by rw [hx, hy]; rfl⟩

end Gmatrix

namespace Gmatrix

/-! ## `Multiply` -/

theorem Multiply_entries_of_le (A B : Matrix) (hA : A.WellFormed) (hB : B.WellFormed)
    (h : A.columns ≤ B.rows) :
    ∃ C, Multiply A B = some C ∧ C.HasShape A.rows B.columns ∧
      ∀ r c : Int, 1 ≤ r → r ≤ A.rows → 1 ≤ c → c ≤ B.columns →
        ∃ row col v, A.Row r = some row ∧ B.Column c = some col ∧
          dotProduct row col = some v ∧ sumProducts A B r c = some v ∧
          C.Get r c = some v := by
  obtain ⟨hA1, hA2, hA3⟩ := hA
  obtain ⟨hB1, hB2, hB3⟩ := hB
  have h0 : 0 ≤ A.rows * B.columns := mul_nonneg hA1 hB2
  have key : ∀ r c : Int, 1 ≤ r → r ≤ A.rows → 1 ≤ c → c ≤ B.columns →
      ∃ row col v, A.Row r = some row ∧ B.Column c = some col ∧
        dotProduct row col = some v ∧ sumProducts A B r c = some v := by
    intro r c hr1 hr hc1 hc
    obtain ⟨row, hrow, hrl, hrg⟩ := Row_entries A r hA3 hA2 hr1 hr
    obtain ⟨col, hcol, _, hcg⟩ := Column_entries B c hB3 hB1 hc1 hc
    obtain ⟨v, hv⟩ := sumProducts_isSome A B r c
      (fun k hk1 hk => (Get_isSome A r k hA3 hr1 hr hk1 hk).imp fun _ hx => hx.1)
      (fun k hk1 hk => (Get_isSome B k c hB3 hk1 (by omega) hc1 hc).imp fun _ hx => hx.1)
    have hd := dotProduct_eq_sumProducts A B r c row col hrl hrg
      (fun k hk1 hk => hcg k hk1 (by omega))
    exact ⟨row, col, v, hrow, hcol, hd.trans hv, hv⟩
  obtain ⟨C, hC, hsh, hget⟩ := fill_grid
    (fun C r => (A.Row r).bind fun A_row => (countTo C.columns).foldlM
      (fun C c => (B.Column c).bind fun B_col =>
        (dotProduct A_row B_col).bind fun v => C.Set r c v) C)
    (fun r C c => (B.Column c).bind fun B_col =>
      (dotProduct ((A.Row r).getD []) B_col).bind fun v => C.Set r c v)
    (fun r c => (sumProducts A B r c).getD F32.nan)
    A.rows B.columns _ (Zeros_HasShape A.rows B.columns h0)
    (fun M1 r hr1 hr hM1 => by
      obtain ⟨row, hrow, _, _⟩ := Row_entries A r hA3 hA2 hr1 hr
      simp only [hrow, Option.some_bind, hM1.2.1, Option.getD_some])
    (fun M1 r c hr1 hr hc1 hc _ _ => by
      obtain ⟨row, col, v, hrow, hcol, hd, hs⟩ := key r c hr1 hr hc1 hc
      simp only [hrow, hcol, hd, hs, Option.some_bind, Option.getD_some])
  refine ⟨C, ?_, hsh, ?_⟩
  · simp only [Multiply, Zeros_eq A.rows B.columns h0, Option.some_bind]
    exact hC
  · intro r c hr1 hr hc1 hc
    obtain ⟨row, col, v, hrow, hcol, hd, hs⟩ := key r c hr1 hr hc1 hc
    refine ⟨row, col, v, hrow, hcol, hd, hs, ?_⟩
    rw [hget r c hr1 hr hc1 hc, hs]
    rfl

theorem Multiply_entries (A B : Matrix) (hA : A.WellFormed) (hB : B.WellFormed)
    (h : A.columns = B.rows) :
    ∃ C, Multiply A B = some C ∧ C.HasShape A.rows B.columns ∧
      ∀ r c : Int, 1 ≤ r → r ≤ A.rows → 1 ≤ c → c ≤ B.columns →
        ∃ row col v, A.Row r = some row ∧ B.Column c = some col ∧
          dotProduct row col = some v ∧ sumProducts A B r c = some v ∧
          C.Get r c = some v :=
  Multiply_entries_of_le A B hA hB (le_of_eq h)

end Gmatrix

namespace Gmatrix

/-! ## Arithmetic on finite `float32` values -/

namespace F32

theorem ulp_pos (q : Nat) : 0 < ulp q := Nat.pos_pow_of_pos _ (by decide)

theorem roundNearestEven_exact (q m : Nat) (hm : 0 < m) :
    roundNearestEven (q * m) m = q := by
  unfold roundNearestEven
  rw [Nat.mul_mod_left, Nat.mul_div_cancel q hm, if_pos (by omega)]

theorem round_exact (s : Bool) (k d : Nat) (hk : Representable k) (hd : 0 < d) :
    round s (k * d) d = fin s k := by
  obtain ⟨hlt, hmod⟩ := hk
  have hdu : 0 < d * ulp k := Nat.mul_pos hd (ulp_pos k)
  have hdiv : k * d / d = k := Nat.mul_div_cancel k hd
  have hq : ulp k * (k / ulp k) = k := Nat.mul_div_cancel' (Nat.dvd_of_mod_eq_zero hmod)
  have hkd : k * d = (k / ulp k) * (d * ulp k) := by
    calc k * d = (ulp k * (k / ulp k)) * d := by rw [hq]
      _ = (k / ulp k) * (d * ulp k) := by ring
  unfold round
  rw [hdiv, hkd, roundNearestEven_exact _ _ hdu, hq, if_pos hlt]

theorem representable_zero : Representable 0 := by decide

theorem mul_one_of_finite (x : F32) (hx : IsFinite x) : mul x one = x := by
  cases x with
  | nan => exact absurd hx (fun h => h)
  | inf s => exact absurd hx (fun h => h)
  | fin s k =>
    show round (xor s false) (k * 2 ^ 149) (2 ^ 149) = fin s k
    rw [Bool.xor_false]
    exact round_exact s k (2 ^ 149) hx (Nat.pos_pow_of_pos _ (by decide))

theorem mul_zero_of_finite (x : F32) (hx : IsFinite x) : ∃ s, mul x zero = fin s 0 := by
  cases x with
  | nan => exact absurd hx (fun h => h)
  | inf s => exact absurd hx (fun h => h)
  | fin s k =>
    refine ⟨xor s false, ?_⟩
    show round (xor s false) (k * 0) (2 ^ 149) = fin (xor s false) 0
    have := round_exact (xor s false) 0 (2 ^ 149) representable_zero
      (Nat.pos_pow_of_pos _ (by decide))
    simpa using this

theorem round_one (s : Bool) (k : Nat) (hk : Representable k) : round s k 1 = fin s k := by
  have := round_exact s k 1 hk (by decide)
  simpa using this

theorem add_signed_zero (t : F32) (ht : IsFiniteNotNegZero t) (s : Bool) :
    add t (fin s 0) = t := by
  cases t with
  | nan => exact absurd ht (fun h => h)
  | inf s1 => exact absurd ht (fun h => h)
  | fin s1 j =>
    obtain ⟨hrep, hz⟩ := ht
    show (if s1 = s then round s1 (j + 0) 1
      else if j = 0 then fin false 0
      else if 0 < j then round s1 (j - 0) 1 else round s (0 - j) 1) = fin s1 j
    by_cases hs : s1 = s
    · rw [if_pos hs, Nat.add_zero]
      exact round_one s1 j hrep
    · rw [if_neg hs]
      by_cases hj : j = 0
      · rw [if_pos hj, hj, hz hj]
      · rw [if_neg hj, if_pos (Nat.pos_of_ne_zero hj), Nat.sub_zero]
        exact round_one s1 j hrep

theorem zero_add_of_finite (x : F32) (hx : IsFinite x) :
    add zero x = (if x = fin true 0 then zero else x) ∧
      IsFiniteNotNegZero (add zero x) := by
  cases x with
  | nan => exact absurd hx (fun h => h)
  | inf s => exact absurd hx (fun h => h)
  | fin s k =>
    have hadd : add zero (fin s k) = (if false = s then round false (0 + k) 1
      else if 0 = k then fin false 0
      else if k < 0 then round false (0 - k) 1 else round s (k - 0) 1) := rfl
    cases s with
    | false =>
      have h1 : add zero (fin false k) = fin false k := by
        rw [hadd, if_pos rfl, Nat.zero_add]
        exact round_one false k hx
      rw [h1, if_neg (by simp)]
      exact ⟨rfl, hx, fun _ => rfl⟩
    | true =>
      by_cases hk : k = 0
      · subst hk
        have h1 : add zero (fin true 0) = zero := by
          rw [hadd, if_neg (by simp), if_pos rfl]; rfl
        rw [h1, if_pos rfl]
        exact ⟨rfl, representable_zero, fun _ => rfl⟩
      · have h1 : add zero (fin true k) = fin true k := by
          rw [hadd, if_neg (by simp), if_neg (fun h => hk h.symm), if_neg (by omega),
            Nat.sub_zero]
          exact round_one true k hx
        rw [h1, if_neg (by simp [hk])]
        exact ⟨rfl, hx, fun h => absurd h hk⟩

theorem feq_drop_zero_sign (x : F32) (hx : IsFinite x) :
    feq (if x = fin true 0 then zero else x) x = true := by
  cases x with
  | nan => exact absurd hx (fun h => h)
  | inf s => exact absurd hx (fun h => h)
  | fin s k =>
    by_cases h : fin s k = fin true 0
    · rw [if_pos h, h]; rfl
    · rw [if_neg h]; simp [feq]

/-- Summing, from a finite total other than `-0`, the products of finite
values with the entries of a unit vector (or of a zero vector). -/
theorem foldl_unit_vector (xs ys : Int → F32) (c : Int) :
    ∀ (ks : List Int) (t : F32), ks.Nodup → (∀ k ∈ ks, IsFinite (xs k)) →
      (∀ k ∈ ks, ys k = if k = c then one else zero) → IsFiniteNotNegZero t →
      (c ∉ ks → ks.foldl (fun t k => add t (mul (xs k) (ys k))) t = t) ∧
      (c ∈ ks → t = zero →
        ks.foldl (fun t k => add t (mul (xs k) (ys k))) t =
          if xs c = fin true 0 then zero else xs c) := by
  intro ks
  induction ks with
  | nil => intro t _ _ _ _; exact ⟨fun _ => rfl, fun h => absurd h (List.not_mem_nil c)⟩
  | cons k rest ih =>
    intro t hnd hfin hys ht
    obtain ⟨hkr, hndr⟩ := List.nodup_cons.mp hnd
    have hfk := hfin k (List.mem_cons_self k rest)
    have hyk := hys k (List.mem_cons_self k rest)
    have hfr : ∀ j ∈ rest, IsFinite (xs j) := fun j hj => hfin j (List.mem_cons_of_mem k hj)
    have hyr : ∀ j ∈ rest, ys j = if j = c then one else zero :=
      fun j hj => hys j (List.mem_cons_of_mem k hj)
    by_cases hkc : k = c
    · subst hkc
      rw [if_pos rfl] at hyk
      refine ⟨fun h => absurd (List.mem_cons_self k rest) h, fun _ htz => ?_⟩
      obtain ⟨hval, hstable⟩ := zero_add_of_finite (xs k) hfk
      simp only [List.foldl_cons, hyk, mul_one_of_finite (xs k) hfk, htz]
      rw [(ih (add zero (xs k)) hndr hfr hyr hstable).1 hkr]
      exact hval
    · rw [if_neg hkc] at hyk
      obtain ⟨s, hs⟩ := mul_zero_of_finite (xs k) hfk
      have hstep : add t (mul (xs k) (ys k)) = t := by
        rw [hyk, hs]; exact add_signed_zero t ht s
      obtain ⟨ih1, ih2⟩ := ih t hndr hfr hyr ht
      refine ⟨fun h => ?_, fun h htz => ?_⟩
      · simp only [List.foldl_cons, hstep]
        exact ih1 (fun hc => h (List.mem_cons_of_mem k hc))
      · simp only [List.foldl_cons, hstep]
        rcases List.mem_cons.mp h with hck | hcr
        · exact absurd hck.symm hkc
        · exact ih2 hcr htz

end F32

end Gmatrix

namespace Gmatrix

namespace F32

/-! ## Sanity of the rounding: bit length and closure -/

theorem bitLen_zero (fuel : Nat) : bitLen fuel 0 = 0 := by
  cases fuel <;> simp [bitLen]

theorem bitLen_spec : ∀ (fuel q : Nat), q ≤ fuel →
    q < 2 ^ bitLen fuel q ∧ (q ≠ 0 → 2 ^ (bitLen fuel q - 1) ≤ q) := by
  intro fuel
  induction fuel with
  | zero =>
    intro q hq
    have : q = 0 := by omega
    subst this
    simp [bitLen]
  | succ fuel ih =>
    intro q hq
    by_cases h0 : q = 0
    · subst h0
      simp [bitLen]
    · obtain ⟨hlt, hge⟩ := ih (q / 2) (by omega)
      have hb : bitLen (fuel + 1) q = bitLen fuel (q / 2) + 1 := by simp [bitLen, h0]
      rw [hb]
      refine ⟨?_, fun _ => ?_⟩
      · rw [pow_succ]; omega
      · rw [Nat.add_sub_cancel]
        by_cases h2 : q / 2 = 0
        · rw [h2, bitLen_zero]
          simp; omega
        · have h1 := hge h2
          have hpos : 1 ≤ bitLen fuel (q / 2) := by
            by_contra hc
            have : bitLen fuel (q / 2) = 0 := by omega
            rw [this] at hlt
            simp at hlt
            exact h2 hlt
          have : 2 ^ bitLen fuel (q / 2) = 2 ^ (bitLen fuel (q / 2) - 1) * 2 := by
            rw [← pow_succ]; congr 1; omega
          omega

theorem bitLen_le_of_lt (q j : Nat) (h : q < 2 ^ j) : bitLen q q ≤ j := by
  by_cases h0 : q = 0
  · subst h0; simp [bitLen_zero]
  · have h1 := (bitLen_spec q q (le_refl q)).2 h0
    have h2 : 2 ^ (bitLen q q - 1) < 2 ^ j := lt_of_le_of_lt h1 h
    have := (Nat.pow_lt_pow_iff_right (by decide : 1 < 2)).mp h2
    omega

theorem roundNearestEven_le (n d : Nat) : roundNearestEven n d ≤ n / d + 1 := by
  unfold roundNearestEven
  split
  · omega
  · split
    · omega
    · split <;> omega

/-- A finite result of `round` is a binary32 value. -/
theorem round_representable (s s1 : Bool) (n d k : Nat)
    (h : round s n d = fin s1 k) : Representable k := by
  unfold round at h
  split at h
  · rename_i hlt
    injection h with _ hk
    subst hk
    refine ⟨hlt, ?_⟩
    have hq := (bitLen_spec (n / d) (n / d) (le_refl _)).1
    have hm := roundNearestEven_le n (d * ulp (n / d))
    rw [← Nat.div_div_eq_div_mul] at hm
    generalize roundNearestEven n (d * ulp (n / d)) = m at hm hlt ⊢
    generalize n / d = q at hq hm hlt ⊢
    unfold ulp at hm ⊢
    generalize hL : bitLen q q = L at hq hm ⊢
    by_cases h24 : L ≤ 24
    · have he : L - 24 = 0 := by omega
      rw [he] at hm ⊢
      simp only [pow_zero, Nat.div_one, one_mul] at hm ⊢
      have hq24 : q < 2 ^ 24 := lt_of_lt_of_le hq (Nat.pow_le_pow_right (by decide) h24)
      have hm24 : m < 2 ^ 24 + 1 := by omega
      have hb : bitLen m m ≤ 25 := bitLen_le_of_lt m 25 (by omega)
      by_cases hm2 : m < 2 ^ 24
      · have := bitLen_le_of_lt m 24 hm2
        have he2 : bitLen m m - 24 = 0 := by omega
        rw [he2, pow_zero]
        exact Nat.mod_one m
      · have hme : m = 2 ^ 24 := by omega
        rw [hme]
        have hlow := (bitLen_spec (2 ^ 24) (2 ^ 24) (le_refl _)).2 (by decide)
        have hx : bitLen (2 ^ 24) (2 ^ 24) - 24 ≤ 1 := by
          have := hme ▸ hb
          omega
        exact Nat.mod_eq_zero_of_dvd
          (Nat.pow_dvd_pow 2 (by omega : bitLen (2 ^ 24) (2 ^ 24) - 24 ≤ 24))
    · have hLe : L = (L - 24) + 24 := by omega
      generalize L - 24 = e at hLe hm hlt ⊢
      subst hLe
      have hqe : q / 2 ^ e < 2 ^ 24 := by
        rw [Nat.div_lt_iff_lt_mul (Nat.pos_pow_of_pos _ (by decide)), ← pow_add,
          Nat.add_comm]
        exact hq
      have hm24 : m ≤ 2 ^ 24 := by omega
      have hk : 2 ^ e * m ≤ 2 ^ (e + 24) := by
        rw [pow_add]; exact Nat.mul_le_mul_left _ hm24
      have hb : bitLen (2 ^ e * m) (2 ^ e * m) ≤ e + 25 :=
        bitLen_le_of_lt _ _ (lt_of_le_of_lt hk (Nat.pow_lt_pow_right (by decide) (by omega)))
      by_cases hm2 : m < 2 ^ 24
      · have hk2 : 2 ^ e * m < 2 ^ (e + 24) := by
          rw [pow_add]
          exact Nat.mul_lt_mul_of_pos_left hm2 (Nat.pos_pow_of_pos _ (by decide))
        have hb2 := bitLen_le_of_lt _ _ hk2
        exact Nat.mod_eq_zero_of_dvd
          (Dvd.dvd.mul_right (Nat.pow_dvd_pow 2 (by omega)) m)
      · have hme : m = 2 ^ 24 := by omega
        subst hme
        rw [← pow_add] at hb ⊢
        exact Nat.mod_eq_zero_of_dvd (Nat.pow_dvd_pow 2 (by omega))
  · cases h

theorem round_isFloat32 (s : Bool) (n d : Nat) : IsFloat32 (round s n d) := by
  cases h : round s n d with
  | nan => trivial
  | inf a => trivial
  | fin a k => exact round_representable s a n d k h

/-- The product of two values is a `float32`. -/
theorem mul_isFloat32 (x y : F32) : IsFloat32 (mul x y) := by
  cases x with
  | nan => simp [mul, IsFloat32]
  | inf a =>
    cases y with
    | nan => trivial
    | inf b => trivial
    | fin b j =>
      show IsFloat32 (if j = 0 then nan else inf (xor a b))
      split <;> trivial
  | fin a i =>
    cases y with
    | nan => trivial
    | inf b =>
      show IsFloat32 (if i = 0 then nan else inf (xor a b))
      split <;> trivial
    | fin b j => exact round_isFloat32 _ _ _

/-- The sum of two values is a `float32`. -/
theorem add_isFloat32 (x y : F32) : IsFloat32 (add x y) := by
  cases x with
  | nan => simp [add, IsFloat32]
  | inf a =>
    cases y with
    | nan => trivial
    | inf b =>
      show IsFloat32 (if a = b then inf a else nan)
      split <;> trivial
    | fin b j => trivial
  | fin a i =>
    cases y with
    | nan => trivial
    | inf b => trivial
    | fin b j =>
      show IsFloat32 (if a = b then round a (i + j) 1
        else if i = j then fin false 0
        else if j < i then round a (i - j) 1 else round b (j - i) 1)
      split
      · exact round_isFloat32 _ _ _
      · split
        · exact representable_zero
        · split <;> exact round_isFloat32 _ _ _

end F32

end Gmatrix

namespace Gmatrix

/-! ## Multiplying by `Identity` and by `Zeros` -/

theorem foldlM_products_eq_foldl (A B : Matrix) (r c : Int) :
    ∀ (ks : List Int) (t : F32),
      (∀ k ∈ ks, ∃ x, A.Get r k = some x) → (∀ k ∈ ks, ∃ y, B.Get k c = some y) →
      ks.foldlM (fun total k => (A.Get r k).bind fun x => (B.Get k c).bind fun y =>
          some (F32.add total (F32.mul x y))) t =
        some (ks.foldl (fun t k => F32.add t
          (F32.mul ((A.Get r k).getD F32.nan) ((B.Get k c).getD F32.nan))) t) := by
  intro ks
  induction ks with
  | nil => intro t _ _; rfl
  | cons k rest ih =>
    intro t hA hB
    obtain ⟨x, hx⟩ := hA k (List.mem_cons_self k rest)
    obtain ⟨y, hy⟩ := hB k (List.mem_cons_self k rest)
    simp only [List.foldlM_cons, List.foldl_cons, hx, hy, Option.some_bind, Option.getD_some]
    exact ih _ (fun j hj => hA j (List.mem_cons_of_mem k hj))
      (fun j hj => hB j (List.mem_cons_of_mem k hj))

theorem Get_mem_data (A : Matrix) (r c : Int)
    (hlen : (A.data.length : Int) = A.rows * A.columns)
    (hr1 : 1 ≤ r) (hr : r ≤ A.rows) (hc1 : 1 ≤ c) (hc : c ≤ A.columns) :
    ∃ x, A.Get r c = some x ∧ x ∈ A.data := by
  obtain ⟨x, hx, hx2⟩ := Get_isSome A r c hlen hr1 hr hc1 hc
  exact ⟨x, hx, List.getElem?_mem hx2⟩

end Gmatrix

namespace Gmatrix

/-! ## `Column` and `Row` against `Get` -/

theorem rows_nonneg_of_len (A : Matrix) (hlen : (A.data.length : Int) = A.rows * A.columns)
    (hc : 1 ≤ A.columns) : 0 ≤ A.rows := by
  by_contra h
  have h1 : A.rows * A.columns ≤ (-1) * A.columns :=
    mul_le_mul_of_nonneg_right (by omega) (by omega)
  omega

theorem columns_nonneg_of_len (A : Matrix)
    (hlen : (A.data.length : Int) = A.rows * A.columns) (hr : 1 ≤ A.rows) :
    0 ≤ A.columns := by
  by_contra h
  have h1 : A.rows * A.columns ≤ 1 * A.columns :=
    mul_le_mul_of_nonpos_right hr (by omega)
  omega

/-- Claim C11: for `A` with `len(data) == rows*columns` and `1 ≤ n ≤ columns`,
`A.Column(n)` has length `rows` and its entry at `i - 1` is `A.Row(i)[n - 1]`,
which is `A.Get(i, n)`, for every `1 ≤ i ≤ rows`. -/
theorem Column_from_rows (A : Matrix) (n : Int)
    (hlen : (A.data.length : Int) = A.rows * A.columns) (hn1 : 1 ≤ n) (hn : n ≤ A.columns) :
    ∃ col, A.Column n = some col ∧ (col.length : Int) = A.rows ∧
      ∀ i : Int, 1 ≤ i → i ≤ A.rows →
        ∃ row x, A.Row i = some row ∧ getIdx row (n - 1) = some x ∧
          getIdx col (i - 1) = some x ∧ A.Get i n = some x := by
  have hR := rows_nonneg_of_len A hlen (by omega)
  obtain ⟨col, hcol, hl, hget⟩ := Column_entries A n hlen hR hn1 hn
  refine ⟨col, hcol, hl, ?_⟩
  intro i hi1 hi
  obtain ⟨row, hrow, _, hrg⟩ := Row_entries A i hlen (by omega) hi1 hi
  obtain ⟨x, hx, _⟩ := Get_isSome A i n hlen hi1 hi hn1 hn
  exact ⟨row, x, hrow, (hrg n hn1 hn).trans hx, (hget i hi1 hi).trans hx, hx⟩

theorem Column_from_rows_witness :
    ∃ col, Matrix.Column ⟨2, 3, [F32.ofNat 1, F32.ofNat 2, F32.ofNat 3, F32.ofNat 4,
        F32.ofNat 5, F32.ofNat 6]⟩ 2 = some col ∧ (col.length : Int) = 2 ∧
      ∀ i : Int, 1 ≤ i → i ≤ 2 →
        ∃ row x, Matrix.Row ⟨2, 3, [F32.ofNat 1, F32.ofNat 2, F32.ofNat 3, F32.ofNat 4,
            F32.ofNat 5, F32.ofNat 6]⟩ i = some row ∧ getIdx row (2 - 1) = some x ∧
          getIdx col (i - 1) = some x ∧
          Matrix.Get ⟨2, 3, [F32.ofNat 1, F32.ofNat 2, F32.ofNat 3, F32.ofNat 4,
            F32.ofNat 5, F32.ofNat 6]⟩ i 2 = some x :=
  Column_from_rows ⟨2, 3, _⟩ 2 (by decide) (by decide) (by decide)

/-- Claim C12: for `A` with `len(data) == rows*columns` and `1 ≤ n ≤ rows`,
`A.Row(n)` has length exactly `columns` and its entry at `j - 1` is
`A.Get(n, j)` for every `1 ≤ j ≤ columns`. -/
theorem Row_from_Get (A : Matrix) (n : Int)
    (hlen : (A.data.length : Int) = A.rows * A.columns) (hn1 : 1 ≤ n) (hn : n ≤ A.rows) :
    ∃ row, A.Row n = some row ∧ (row.length : Int) = A.columns ∧
      ∀ j : Int, 1 ≤ j → j ≤ A.columns →
        ∃ x, getIdx row (j - 1) = some x ∧ A.Get n j = some x := by
  have hN := columns_nonneg_of_len A hlen (by omega)
  obtain ⟨row, hrow, hl, hget⟩ := Row_entries A n hlen hN hn1 hn
  refine ⟨row, hrow, hl, ?_⟩
  intro j hj1 hj
  obtain ⟨x, hx, _⟩ := Get_isSome A n j hlen hn1 hn hj1 hj
  exact ⟨x, (hget j hj1 hj).trans hx, hx⟩

theorem Row_from_Get_witness :
    ∃ row, Matrix.Row ⟨2, 3, [F32.ofNat 1, F32.ofNat 2, F32.ofNat 3, F32.ofNat 4,
        F32.ofNat 5, F32.ofNat 6]⟩ 2 = some row ∧ (row.length : Int) = 3 ∧
      ∀ j : Int, 1 ≤ j → j ≤ 3 →
        ∃ x, getIdx row (j - 1) = some x ∧
          Matrix.Get ⟨2, 3, [F32.ofNat 1, F32.ofNat 2, F32.ofNat 3, F32.ofNat 4,
            F32.ofNat 5, F32.ofNat 6]⟩ 2 j = some x :=
  Row_from_Get ⟨2, 3, _⟩ 2 (by decide) (by decide) (by decide)

end Gmatrix

namespace Gmatrix

/-! ## Index safety, the frame of `Set`, and unchecked columns -/

/-- Claim C17: on a matrix with `len(data) == rows*columns`, for `1 ≤ r ≤ rows`
and `1 ≤ c ≤ columns` the value `findIndex(r, c)` lies in `[0, rows*columns)`,
so `Get(r, c)` and `Set(r, c, v)` do not index out of range; `Row(n)` for
`1 ≤ n ≤ rows` and `Column(n)` for `1 ≤ n ≤ columns` do not index or slice out
of range either. -/
theorem valid_indices_do_not_panic (A : Matrix)
    (hlen : (A.data.length : Int) = A.rows * A.columns) :
    (∀ r c : Int, 1 ≤ r → r ≤ A.rows → 1 ≤ c → c ≤ A.columns →
      0 ≤ findIndex r c A ∧ findIndex r c A < A.rows * A.columns ∧
      (∃ x, A.Get r c = some x) ∧ ∀ v : F32, ∃ A1, A.Set r c v = some A1) ∧
    (∀ n : Int, 1 ≤ n → n ≤ A.rows → ∃ row, A.Row n = some row) ∧
    (∀ n : Int, 1 ≤ n → n ≤ A.columns → ∃ col, A.Column n = some col) := by
  refine ⟨fun r c hr1 hr hc1 hc => ⟨findIndex_nonneg A r c hr1 hc1 (by omega),
    findIndex_lt A r c hr hc1 hc, ?_, fun v => ⟨_, Set_eq A r c v hlen hr1 hr hc1 hc⟩⟩,
    fun n hn1 hn => ?_, fun n hn1 hn => ?_⟩
  · exact (Get_isSome A r c hlen hr1 hr hc1 hc).imp fun _ h => h.1
  · exact (Row_entries A n hlen (columns_nonneg_of_len A hlen (by omega)) hn1 hn).imp
      fun _ h => h.1
  · exact (Column_entries A n hlen (rows_nonneg_of_len A hlen (by omega)) hn1 hn).imp
      fun _ h => h.1

theorem valid_indices_do_not_panic_witness :
    (∀ r c : Int, 1 ≤ r → r ≤ 2 → 1 ≤ c → c ≤ 3 →
      0 ≤ findIndex r c ⟨2, 3, [F32.ofNat 1, F32.ofNat 2, F32.ofNat 3, F32.ofNat 4,
        F32.ofNat 5, F32.ofNat 6]⟩ ∧
      findIndex r c ⟨2, 3, [F32.ofNat 1, F32.ofNat 2, F32.ofNat 3, F32.ofNat 4,
        F32.ofNat 5, F32.ofNat 6]⟩ < 2 * 3 ∧
      (∃ x, Matrix.Get ⟨2, 3, [F32.ofNat 1, F32.ofNat 2, F32.ofNat 3, F32.ofNat 4,
        F32.ofNat 5, F32.ofNat 6]⟩ r c = some x) ∧
      ∀ v : F32, ∃ A1, Matrix.Set ⟨2, 3, [F32.ofNat 1, F32.ofNat 2, F32.ofNat 3,
        F32.ofNat 4, F32.ofNat 5, F32.ofNat 6]⟩ r c v = some A1) ∧
    (∀ n : Int, 1 ≤ n → n ≤ 2 → ∃ row, Matrix.Row ⟨2, 3, [F32.ofNat 1, F32.ofNat 2,
      F32.ofNat 3, F32.ofNat 4, F32.ofNat 5, F32.ofNat 6]⟩ n = some row) ∧
    (∀ n : Int, 1 ≤ n → n ≤ 3 → ∃ col, Matrix.Column ⟨2, 3, [F32.ofNat 1, F32.ofNat 2,
      F32.ofNat 3, F32.ofNat 4, F32.ofNat 5, F32.ofNat 6]⟩ n = some col) :=
  valid_indices_do_not_panic ⟨2, 3, _⟩ (by decide)

/-- Claim C18: on a matrix with `len(data) == rows*columns`, `Set(r, c, v)` at a
position of the grid leaves `rows`, `columns` and `len(data)` unchanged and
leaves `Get(r1, c1)` unchanged at every other position of the grid; `findIndex`
is injective on the positions of the grid. -/
theorem Set_changes_only_its_cell (A : Matrix) (r c : Int) (v : F32)
    (hlen : (A.data.length : Int) = A.rows * A.columns)
    (hr1 : 1 ≤ r) (hr : r ≤ A.rows) (hc1 : 1 ≤ c) (hc : c ≤ A.columns) :
    ∃ A1, A.Set r c v = some A1 ∧ A1.rows = A.rows ∧ A1.columns = A.columns ∧
      A1.data.length = A.data.length ∧
      (∀ r1 c1 : Int, 1 ≤ r1 → r1 ≤ A.rows → 1 ≤ c1 → c1 ≤ A.columns →
        ¬ (r1 = r ∧ c1 = c) → A1.Get r1 c1 = A.Get r1 c1) ∧
      (∀ r1 c1 : Int, 1 ≤ r1 → r1 ≤ A.rows → 1 ≤ c1 → c1 ≤ A.columns →
        findIndex r1 c1 A = findIndex r c A → r1 = r ∧ c1 = c) := by
  refine ⟨_, Set_eq A r c v hlen hr1 hr hc1 hc, rfl, rfl, by simp, ?_, ?_⟩
  · intro r1 c1 hs1 _ hd1 hd hne
    exact Get_Set_other A r c r1 c1 v hr1 hc1 hc hs1 hd1 hd hne
  · intro r1 c1 _ _ hd1 hd h
    exact findIndex_inj A r1 c1 r c hd1 hd hc1 hc h

theorem Set_changes_only_its_cell_witness :
    ∃ A1, Matrix.Set ⟨2, 3, [F32.ofNat 1, F32.ofNat 2, F32.ofNat 3, F32.ofNat 4,
        F32.ofNat 5, F32.ofNat 6]⟩ 1 2 (F32.ofBits 0x40533333) = some A1 ∧
      A1.rows = 2 ∧ A1.columns = 3 ∧ A1.data.length = 6 ∧
      (∀ r1 c1 : Int, 1 ≤ r1 → r1 ≤ 2 → 1 ≤ c1 → c1 ≤ 3 →
        ¬ (r1 = 1 ∧ c1 = 2) → A1.Get r1 c1 =
          Matrix.Get ⟨2, 3, [F32.ofNat 1, F32.ofNat 2, F32.ofNat 3, F32.ofNat 4,
            F32.ofNat 5, F32.ofNat 6]⟩ r1 c1) ∧
      (∀ r1 c1 : Int, 1 ≤ r1 → r1 ≤ 2 → 1 ≤ c1 → c1 ≤ 3 →
        findIndex r1 c1 ⟨2, 3, [F32.ofNat 1, F32.ofNat 2, F32.ofNat 3, F32.ofNat 4,
            F32.ofNat 5, F32.ofNat 6]⟩ =
          findIndex 1 2 ⟨2, 3, [F32.ofNat 1, F32.ofNat 2, F32.ofNat 3, F32.ofNat 4,
            F32.ofNat 5, F32.ofNat 6]⟩ → r1 = 1 ∧ c1 = 2) :=
  Set_changes_only_its_cell ⟨2, 3, _⟩ 1 2 _ (by decide) (by decide) (by decide) (by decide)
    (by decide)

/-- Claim C19: `Get` does not check the column against the width: on a matrix
with `len(data) == rows*columns` and `rows ≥ 2`, for `1 ≤ r < rows` and
`1 ≤ c ≤ columns` the call `Get(r, columns + c)` does not panic and returns the
value of `Get(r + 1, c)`, a cell of the following row. -/
theorem Get_past_the_width_reads_next_row (A : Matrix) (r c : Int)
    (hlen : (A.data.length : Int) = A.rows * A.columns) (_hrows : 2 ≤ A.rows)
    (hr1 : 1 ≤ r) (hr : r < A.rows) (hc1 : 1 ≤ c) (hc : c ≤ A.columns) :
    ∃ x, A.Get r (A.columns + c) = some x ∧ A.Get (r + 1) c = some x := by
  obtain ⟨x, hx, _⟩ := Get_isSome A (r + 1) c hlen (by omega) (by omega) hc1 hc
  refine ⟨x, ?_, hx⟩
  have hidx : findIndex r (A.columns + c) A = findIndex (r + 1) c A := by
    unfold findIndex; ring
  unfold Matrix.Get at hx ⊢
  rw [hidx]
  exact hx

theorem Get_past_the_width_reads_next_row_witness :
    ∃ x, Matrix.Get ⟨2, 3, [F32.ofNat 1, F32.ofNat 2, F32.ofNat 3, F32.ofNat 4,
        F32.ofNat 5, F32.ofNat 6]⟩ 1 (3 + 2) = some x ∧
      Matrix.Get ⟨2, 3, [F32.ofNat 1, F32.ofNat 2, F32.ofNat 3, F32.ofNat 4,
        F32.ofNat 5, F32.ofNat 6]⟩ (1 + 1) 2 = some x :=
  Get_past_the_width_reads_next_row ⟨2, 3, _⟩ 1 2 (by decide) (by decide) (by decide)
    (by decide) (by decide) (by decide)

/-- Claim C16: `Trans` performs no operation: after `A.Trans()` the matrix is
exactly what it was, so `rows`, `columns` and `data` are unchanged, and the
result is not the transpose of `A` when `A` is not square or not symmetric. -/
theorem Trans_is_a_no_op (A : Matrix) :
    A.Trans = A ∧ A.Trans.rows = A.rows ∧ A.Trans.columns = A.columns ∧
    A.Trans.data = A.data ∧
    (A.rows ≠ A.columns → ¬ IsTranspose A.Trans A) ∧
    ((∃ r c : Int, 1 ≤ r ∧ r ≤ A.rows ∧ 1 ≤ c ∧ c ≤ A.columns ∧ A.Get c r ≠ A.Get r c) →
      ¬ IsTranspose A.Trans A) := by
  refine ⟨rfl, rfl, rfl, rfl, ?_, ?_⟩
  · intro hne hT
    exact hne hT.1
  · rintro ⟨r, c, hr1, hr, hc1, hc, hne⟩ hT
    exact hne (hT.2.2 r c hr1 hr hc1 hc)

theorem Trans_is_a_no_op_witness :
    ¬ IsTranspose (Matrix.Trans ⟨2, 3, [F32.ofNat 1, F32.ofNat 2, F32.ofNat 3, F32.ofNat 4,
        F32.ofNat 5, F32.ofNat 6]⟩)
      ⟨2, 3, [F32.ofNat 1, F32.ofNat 2, F32.ofNat 3, F32.ofNat 4, F32.ofNat 5, F32.ofNat 6]⟩ :=
  (Trans_is_a_no_op ⟨2, 3, _⟩).2.2.2.2.1 (by decide)

end Gmatrix

namespace Gmatrix

/-! ## The invariant `len(data) == rows * columns` -/

theorem foldlM_preserves {α β : Type} (P : β → Prop) (f : β → α → Option β)
    (hf : ∀ s x s1, P s → f s x = some s1 → P s1) :
    ∀ (l : List α) (s s1 : β), P s → l.foldlM f s = some s1 → P s1 := by
  intro l
  induction l with
  | nil =>
    intro s s1 hs h
    have : s = s1 := by simpa using h
    exact this ▸ hs
  | cons x xs ih =>
    intro s s1 hs h
    rw [List.foldlM_cons] at h
    obtain ⟨s2, h2, h3⟩ := Option.bind_eq_some.mp h
    exact ih s2 s1 (hf s x s2 hs h2) h3

theorem Set_preserves_shape (A A1 : Matrix) (r c R N : Int) (v : F32)
    (hA : A.HasShape R N) (h : A.Set r c v = some A1) : A1.HasShape R N := by
  unfold Matrix.Set at h
  obtain ⟨d, hd, rfl⟩ := Option.map_eq_some'.mp h
  unfold setIdx at hd
  split at hd
  · injection hd with hd
    subst hd
    exact HasShape_set A R N hA _ v
  · cases hd

theorem Multiply_preserves_shape (A B C : Matrix) (h : Multiply A B = some C) :
    C.HasShape A.rows B.columns := by
  unfold Multiply at h
  obtain ⟨Z, hZ, hloop⟩ := Option.bind_eq_some.mp h
  have hZs : Z.HasShape A.rows B.columns := by
    unfold Zeros at hZ
    obtain ⟨d, hd, rfl⟩ := Option.map_eq_some'.mp hZ
    unfold make at hd
    split at hd
    · cases hd
    · injection hd with hd
      subst hd
      exact ⟨rfl, rfl, by simp; omega⟩
  refine foldlM_preserves (fun M => M.HasShape A.rows B.columns) _ ?_ _ Z C hZs hloop
  intro M r M1 hM hstep
  obtain ⟨row, _, hinner⟩ := Option.bind_eq_some.mp hstep
  refine foldlM_preserves (fun M => M.HasShape A.rows B.columns) _ ?_ _ M M1 hM hinner
  intro M2 c M3 hM2 hcell
  obtain ⟨col, _, hcell1⟩ := Option.bind_eq_some.mp hcell
  obtain ⟨v, _, hset⟩ := Option.bind_eq_some.mp hcell1
  exact Set_preserves_shape M2 M3 r c _ _ v hM2 hset

theorem Add_preserves_shape (A B C : Matrix) (h : Add A B = some C) :
    C.HasShape A.rows A.columns := by
  unfold Add at h
  obtain ⟨Z, hZ, hloop⟩ := Option.bind_eq_some.mp h
  have hZs : Z.HasShape A.rows A.columns := by
    unfold Zeros at hZ
    obtain ⟨d, hd, rfl⟩ := Option.map_eq_some'.mp hZ
    unfold make at hd
    split at hd
    · cases hd
    · injection hd with hd
      subst hd
      exact ⟨rfl, rfl, by simp; omega⟩
  refine foldlM_preserves (fun M => M.HasShape A.rows A.columns) _ ?_ _ Z C hZs hloop
  intro M r M1 hM hinner
  refine foldlM_preserves (fun M => M.HasShape A.rows A.columns) _ ?_ _ M M1 hM hinner
  intro M2 c M3 hM2 hcell
  obtain ⟨x, _, hcell1⟩ := Option.bind_eq_some.mp hcell
  obtain ⟨y, _, hset⟩ := Option.bind_eq_some.mp hcell1
  exact Set_preserves_shape M2 M3 r c _ _ _ hM2 hset

theorem LenInvariant_of_HasShape (M : Matrix) (R N : Int) (h : M.HasShape R N) :
    M.LenInvariant := by
  obtain ⟨h1, h2, h3⟩ := h
  unfold Matrix.LenInvariant
  rw [h3, h1, h2]

end Gmatrix

namespace Gmatrix

/-! ## `Multiply` on mismatched dimensions -/

theorem foldlM_none_of_mem {α β : Type} (P : β → Prop) (f : β → α → Option β)
    (hP : ∀ s x s1, P s → f s x = some s1 → P s1) (x0 : α)
    (hx : ∀ s, P s → f s x0 = none) :
    ∀ (l : List α) (s : β), P s → x0 ∈ l → l.foldlM f s = none := by
  intro l
  induction l with
  | nil => intro s _ h; exact absurd h (List.not_mem_nil x0)
  | cons y ys ih =>
    intro s hs hmem
    rw [List.foldlM_cons]
    cases hfy : f s y with
    | none => rfl
    | some s2 =>
      rcases List.mem_cons.mp hmem with rfl | hys
      · rw [hx s hs] at hfy
        cases hfy
      · exact ih s2 (hP s y s2 hs hfy) hys

theorem dotProduct_none_of_shorter (a b : List F32) (h : b.length < a.length) :
    dotProduct a b = none := by
  unfold dotProduct
  refine foldlM_none_of_mem (fun _ => True) _ (fun _ _ _ _ _ => trivial) b.length ?_ _ _
    trivial (List.mem_range.mpr h)
  intro s _
  have hb : getIdx b (b.length : Int) = none := by simp [getIdx]
  rw [hb]
  cases getIdx a (b.length : Int) <;> rfl

theorem Multiply_none_of_lt (A B : Matrix)
    (hA : (A.data.length : Int) = A.rows * A.columns)
    (hB : (B.data.length : Int) = B.rows * B.columns)
    (hAr : 1 ≤ A.rows) (hBc : 1 ≤ B.columns) (h : B.rows < A.columns) :
    Multiply A B = none := by
  have hBr := rows_nonneg_of_len B hB hBc
  have h0 : 0 ≤ A.rows * B.columns := mul_nonneg (by omega) (by omega)
  obtain ⟨row, hrow, hrl, _⟩ := Row_entries A 1 hA (by omega) (le_refl 1) hAr
  obtain ⟨col, hcol, hcl, _⟩ := Column_entries B 1 hB hBr (le_refl 1) hBc
  have hdot : dotProduct row col = none := dotProduct_none_of_shorter row col (by omega)
  simp only [Multiply, Zeros_eq A.rows B.columns h0, Option.some_bind]
  refine foldlM_none_of_mem (fun M => M.HasShape A.rows B.columns) _ ?_ 1 ?_ _ _
    (Zeros_HasShape A.rows B.columns h0) ((mem_countTo A.rows 1).mpr ⟨le_refl 1, hAr⟩)
  · intro M r M1 hM hstep
    obtain ⟨row1, _, hinner⟩ := Option.bind_eq_some.mp hstep
    refine foldlM_preserves (fun M => M.HasShape A.rows B.columns) _ ?_ _ M M1 hM hinner
    intro M2 c M3 hM2 hcell
    obtain ⟨col1, _, hcell1⟩ := Option.bind_eq_some.mp hcell
    obtain ⟨v, _, hset⟩ := Option.bind_eq_some.mp hcell1
    exact Set_preserves_shape M2 M3 r c _ _ v hM2 hset
  · intro M hM
    simp only [hrow, Option.some_bind]
    refine foldlM_none_of_mem (fun _ => True) _ (fun _ _ _ _ _ => trivial) 1 ?_ _ _
      trivial ((mem_countTo M.columns 1).mpr ⟨le_refl 1, by rw [hM.2.1]; exact hBc⟩)
    intro M2 _
    simp only [hcol, hdot, Option.some_bind, Option.none_bind]

end Gmatrix

namespace Gmatrix

/-! ## Multiplying by `Identity` on the left -/

theorem F32.mul_comm (x y : F32) : F32.mul x y = F32.mul y x := by
  cases x <;> cases y <;> simp [F32.mul, Bool.xor_comm, Nat.mul_comm]

/-- The sum of products of a row that is the unit vector at `d` (or the zero
vector, for `d` outside `1..A.columns`) with a column of finite values. -/
theorem sumProducts_unit_row (A B : Matrix) (r c d : Int)
    (hA : ∀ k : Int, 1 ≤ k → k ≤ A.columns →
      A.Get r k = some (if k = d then F32.one else F32.zero))
    (hB : ∀ k : Int, 1 ≤ k → k ≤ A.columns → ∃ y, B.Get k c = some y ∧ F32.IsFinite y) :
    (d ∉ countTo A.columns → sumProducts A B r c = some F32.zero) ∧
    (d ∈ countTo A.columns → sumProducts A B r c =
      some (if (B.Get d c).getD F32.nan = F32.fin true 0 then F32.zero
        else (B.Get d c).getD F32.nan)) := by
  have hsum := foldlM_products_eq_foldl A B r c (countTo A.columns) F32.zero
    (fun k hk => by
      obtain ⟨hk1, hkN⟩ := (mem_countTo A.columns k).mp hk
      exact ⟨_, hA k hk1 hkN⟩)
    (fun k hk => by
      obtain ⟨hk1, hkN⟩ := (mem_countTo A.columns k).mp hk
      exact (hB k hk1 hkN).imp fun _ h => h.1)
  have hswap : (fun (t : F32) (k : Int) => F32.add t
        (F32.mul ((A.Get r k).getD F32.nan) ((B.Get k c).getD F32.nan))) =
      fun t k => F32.add t
        (F32.mul ((B.Get k c).getD F32.nan) ((A.Get r k).getD F32.nan)) := by
    funext t k
    rw [F32.mul_comm]
  rw [hswap] at hsum
  obtain ⟨h1, h2⟩ := F32.foldl_unit_vector (fun k => (B.Get k c).getD F32.nan)
    (fun k => (A.Get r k).getD F32.nan) d (countTo A.columns) F32.zero
    (nodup_countTo A.columns)
    (fun k hk => by
      obtain ⟨hk1, hkN⟩ := (mem_countTo A.columns k).mp hk
      obtain ⟨y, hy, hfin⟩ := hB k hk1 hkN
      simpa [hy] using hfin)
    (fun k hk => by
      obtain ⟨hk1, hkN⟩ := (mem_countTo A.columns k).mp hk
      simp [hA k hk1 hkN])
    ⟨F32.representable_zero, fun _ => rfl⟩
  unfold sumProducts
  exact ⟨fun h => by rw [hsum, h1 h], fun h => by rw [hsum, h2 h rfl]⟩

end Gmatrix

namespace Gmatrix

/-! ## The text written by `String` -/

theorem intercalate_go_append (x s : String) :
    ∀ (l : List String) (acc : String),
      String.intercalate.go (x ++ acc) s l = x ++ String.intercalate.go acc s l := by
  intro l
  induction l with
  | nil => intro acc; rfl
  | cons a t ih =>
    intro acc
    simp only [String.intercalate.go]
    rw [String.append_assoc, String.append_assoc, ih, String.append_assoc]

theorem intercalate_cons_cons (s a b : String) (t : List String) :
    s.intercalate (a :: b :: t) = a ++ s ++ s.intercalate (b :: t) := by
  simp only [String.intercalate, String.intercalate.go]
  rw [String.append_assoc, intercalate_go_append, intercalate_go_append,
    String.append_assoc]

theorem foldl_join (f : Int → String) (sep last : String) (n : Int) :
    ∀ (l : List Int) (bf : String), (∀ c ∈ l, c ≠ n) →
      (l ++ [n]).foldl (fun bf c => (bf ++ f c) ++ (if c = n then last else sep)) bf =
        bf ++ sep.intercalate ((l ++ [n]).map f) ++ last := by
  intro l
  induction l with
  | nil =>
    intro bf _
    simp [String.intercalate, String.intercalate.go]
  | cons a t ih =>
    intro bf h
    have ha : a ≠ n := h a (List.mem_cons_self a t)
    obtain ⟨b, u, hbu⟩ : ∃ b u, (t ++ [n]).map f = b :: u := by
      cases t with
      | nil => exact ⟨f n, [], rfl⟩
      | cons c t1 => exact ⟨f c, (t1 ++ [n]).map f, rfl⟩
    have hrec := ih (bf ++ f a ++ sep) (fun c hc => h c (List.mem_cons_of_mem a hc))
    simp only [List.cons_append, List.foldl_cons, List.map_cons, if_neg ha]
    rw [hrec, hbu, intercalate_cons_cons]
    simp only [String.append_assoc]

theorem countTo_succ (n : Int) (hn : 1 ≤ n) : countTo n = countTo (n - 1) ++ [n] := by
  unfold countTo
  have h1 : n.toNat = (n - 1).toNat + 1 := by omega
  rw [h1, List.range_succ, List.map_append]
  simp only [List.map_cons, List.map_nil]
  congr 2
  omega

theorem foldl_join_countTo (f : Int → String) (sep last : String) (n : Int) (hn : 1 ≤ n)
    (bf : String) :
    (countTo n).foldl (fun bf c => (bf ++ f c) ++ (if c = n then last else sep)) bf =
      bf ++ sep.intercalate ((countTo n).map f) ++ last := by
  rw [countTo_succ n hn]
  exact foldl_join f sep last n (countTo (n - 1)) bf
    (fun c hc => by have := (mem_countTo (n - 1) c).mp hc; omega)

theorem foldlM_eq_some_foldl {α β : Type} (f : β → α → Option β) (g : β → α → β) :
    ∀ (l : List α) (s : β), (∀ x ∈ l, ∀ t, f t x = some (g t x)) →
      l.foldlM f s = some (l.foldl g s) := by
  intro l
  induction l with
  | nil => intro s _; rfl
  | cons x xs ih =>
    intro s h
    simp only [List.foldlM_cons, List.foldl_cons, h x (List.mem_cons_self x xs) s,
      Option.some_bind]
    exact ih _ (fun y hy => h y (List.mem_cons_of_mem x hy))

theorem String_eq_matrixText (format : F32 → String) (m : Matrix)
    (hlen : (m.data.length : Int) = m.rows * m.columns)
    (hrows : 1 ≤ m.rows) (hcols : 1 ≤ m.columns) :
    m.String format = some (matrixText format m) := by
  have hinner : ∀ r ∈ countTo m.rows, ∀ bf : String,
      (countTo m.columns).foldlM
        (fun bf c => (getIdx m.data (findIndex r c m)).map fun x =>
          (bf ++ format x) ++
            (if c = m.columns then (if r = m.rows then "]" else ",\n ") else ", ")) bf =
      some ((bf ++ rowText format m r) ++ (if r = m.rows then "]" else ",\n ")) := by
    intro r hr bf
    obtain ⟨hr1, hrR⟩ := (mem_countTo m.rows r).mp hr
    rw [foldlM_eq_some_foldl _
      (fun bf c => (bf ++ format ((m.Get r c).getD F32.nan)) ++
        (if c = m.columns then (if r = m.rows then "]" else ",\n ") else ", "))
      (countTo m.columns) bf (fun c hc t => by
        obtain ⟨hc1, hcN⟩ := (mem_countTo m.columns c).mp hc
        obtain ⟨x, hx, _⟩ := Get_isSome m r c hlen hr1 hrR hc1 hcN
        have hx1 : getIdx m.data (findIndex r c m) = some x := hx
        simp only [hx1, hx, Option.map_some', Option.getD_some])]
    rw [foldl_join_countTo (fun c => format ((m.Get r c).getD F32.nan)) ", "
      (if r = m.rows then "]" else ",\n ") m.columns hcols bf]
    rfl
  unfold Matrix.String
  rw [foldlM_eq_some_foldl _
    (fun bf r => (bf ++ rowText format m r) ++ (if r = m.rows then "]" else ",\n "))
    (countTo m.rows) "[" (fun r hr t => hinner r hr t)]
  rw [foldl_join_countTo (fun r => rowText format m r) ",\n " "]" m.rows hrows "["]
  rfl

end Gmatrix

namespace Gmatrix

theorem countTo_two : countTo 2 = [1, 2] := by decide

theorem countTo_three : countTo 3 = [1, 2, 3] := by decide

/-- Claim C13: for a matrix with `len(data) == rows*columns`, `rows ≥ 1` and
`columns ≥ 1`, `String()` is an opening bracket, the rows joined with a comma,
a newline and a space, each row being its formatted elements joined with a
comma and a space, and a closing bracket; in particular, when the formatter
renders the values 1 to 6 as their decimal digits, the 2x3 matrix
`{1,2,3,4,5,6}` renders as `[1, 2, 3,` newline ` 4, 5, 6]`. -/
theorem String_brackets_and_separators (format : F32 → String) (m : Matrix)
    (hlen : (m.data.length : Int) = m.rows * m.columns)
    (hrows : 1 ≤ m.rows) (hcols : 1 ≤ m.columns) :
    m.String format = some ("[" ++ ",\n ".intercalate ((countTo m.rows).map fun r =>
        ", ".intercalate ((countTo m.columns).map fun c =>
          format ((m.Get r c).getD F32.nan))) ++ "]") ∧
    (format (F32.ofNat 1) = "1" → format (F32.ofNat 2) = "2" → format (F32.ofNat 3) = "3" →
      format (F32.ofNat 4) = "4" → format (F32.ofNat 5) = "5" → format (F32.ofNat 6) = "6" →
      Matrix.String format ⟨2, 3, [F32.ofNat 1, F32.ofNat 2, F32.ofNat 3, F32.ofNat 4,
        F32.ofNat 5, F32.ofNat 6]⟩ = some "[1, 2, 3,\n 4, 5, 6]") := by
  refine ⟨String_eq_matrixText format m hlen hrows hcols, ?_⟩
  intro h1 h2 h3 h4 h5 h6
  rw [String_eq_matrixText format
    ⟨2, 3, [F32.ofNat 1, F32.ofNat 2, F32.ofNat 3, F32.ofNat 4, F32.ofNat 5, F32.ofNat 6]⟩
    (by decide) (by decide) (by decide)]
  have hg : ∀ r c : Int, Matrix.Get ⟨2, 3, [F32.ofNat 1, F32.ofNat 2, F32.ofNat 3,
      F32.ofNat 4, F32.ofNat 5, F32.ofNat 6]⟩ r c =
      getIdx [F32.ofNat 1, F32.ofNat 2, F32.ofNat 3, F32.ofNat 4, F32.ofNat 5, F32.ofNat 6]
        ((r - 1) * 3 + c - 1) := fun _ _ => rfl
  simp only [matrixText, rowText, countTo_two, countTo_three, List.map_cons, List.map_nil,
    hg]
  have e11 : getIdx [F32.ofNat 1, F32.ofNat 2, F32.ofNat 3, F32.ofNat 4, F32.ofNat 5,
      F32.ofNat 6] ((1 - 1) * 3 + 1 - 1) = some (F32.ofNat 1) := by
    simp [getIdx]
  have e12 : getIdx [F32.ofNat 1, F32.ofNat 2, F32.ofNat 3, F32.ofNat 4, F32.ofNat 5,
      F32.ofNat 6] ((1 - 1) * 3 + 2 - 1) = some (F32.ofNat 2) := by
    simp [getIdx]
  have e13 : getIdx [F32.ofNat 1, F32.ofNat 2, F32.ofNat 3, F32.ofNat 4, F32.ofNat 5,
      F32.ofNat 6] ((1 - 1) * 3 + 3 - 1) = some (F32.ofNat 3) := by
    simp [getIdx]
  have e21 : getIdx [F32.ofNat 1, F32.ofNat 2, F32.ofNat 3, F32.ofNat 4, F32.ofNat 5,
      F32.ofNat 6] ((2 - 1) * 3 + 1 - 1) = some (F32.ofNat 4) := by
    simp [getIdx]
  have e22 : getIdx [F32.ofNat 1, F32.ofNat 2, F32.ofNat 3, F32.ofNat 4, F32.ofNat 5,
      F32.ofNat 6] ((2 - 1) * 3 + 2 - 1) = some (F32.ofNat 5) := by
    simp [getIdx]
  have e23 : getIdx [F32.ofNat 1, F32.ofNat 2, F32.ofNat 3, F32.ofNat 4, F32.ofNat 5,
      F32.ofNat 6] ((2 - 1) * 3 + 3 - 1) = some (F32.ofNat 6) := by
    simp [getIdx]
  simp only [e11, e12, e13, e21, e22, e23, Option.getD_some, h1, h2, h3, h4, h5, h6]
  rfl

set_option maxRecDepth 100000 in
theorem String_brackets_and_separators_witness :
    Matrix.String formatDigit ⟨2, 3, [F32.ofNat 1, F32.ofNat 2, F32.ofNat 3, F32.ofNat 4,
      F32.ofNat 5, F32.ofNat 6]⟩ = some "[1, 2, 3,\n 4, 5, 6]" :=
  (String_brackets_and_separators formatDigit
    ⟨2, 3, [F32.ofNat 1, F32.ofNat 2, F32.ofNat 3, F32.ofNat 4, F32.ofNat 5, F32.ofNat 6]⟩
    (by decide) (by decide) (by decide)).2
    (by decide) (by decide) (by decide) (by decide) (by decide) (by decide)

end Gmatrix

namespace Gmatrix

/-! ## Agreement of the wrapping operations with the ideal ones -/

theorem wrapInt_of_fits (x : Int) (h0 : -2 ^ 63 ≤ x) (h1 : x < 2 ^ 63) : wrapInt x = x := by
  unfold wrapInt; omega

theorem wrapInt_range (x : Int) : -2 ^ 63 ≤ wrapInt x ∧ wrapInt x < 2 ^ 63 := by
  unfold wrapInt; omega

theorem wrapping_Zeros_eq (r c : Int) (h0 : -2 ^ 63 ≤ r * c) (h1 : r * c < 2 ^ 63) :
    Wrapping.Zeros r c = Zeros r c := by
  unfold Wrapping.Zeros Zeros
  rw [wrapInt_of_fits (r * c) h0 h1]

theorem wrapping_New_eq (r c : Int) (data : List F32) (h0 : -2 ^ 63 ≤ r * c)
    (h1 : r * c < 2 ^ 63) : Wrapping.New r c data = New r c data := by
  unfold Wrapping.New New
  rw [wrapInt_of_fits (r * c) h0 h1, wrapping_Zeros_eq r c h0 h1]

theorem square_plus_stride_fits (n : Int) (h0 : 0 ≤ n) (h : n * n < 2 ^ 63) :
    n * n + n + 1 < 2 ^ 63 := by
  have hn : n ≤ 3037000499 := by
    by_contra hc
    have : (3037000500 : Int) * 3037000500 ≤ n * n := by nlinarith
    norm_num at this h
    omega
  nlinarith

theorem wrapping_identityLoop_eq (n : Int) (h0 : 0 ≤ n) (L : Nat)
    (hL : (L : Int) + n + 1 < 2 ^ 63) :
    ∀ (fuel : Nat) (i : Int) (d : List F32), 0 ≤ i → d.length = L →
      Wrapping.identityLoop n fuel i d = Gmatrix.identityLoop n fuel i d := by
  intro fuel
  induction fuel with
  | zero => intro i d _ _; rfl
  | succ fuel ih =>
    intro i d hi hd
    unfold Wrapping.identityLoop Gmatrix.identityLoop
    by_cases hlt : i < d.length
    · rw [if_pos hlt, if_pos hlt, setIdx_of_bounds d i F32.one hi hlt]
      simp only [Option.some_bind]
      have hs : wrapInt (n + 1) = n + 1 := wrapInt_of_fits _ (by omega) (by omega)
      have hi1 : wrapInt (i + (n + 1)) = i + (n + 1) :=
        wrapInt_of_fits _ (by omega) (by omega)
      rw [hs, hi1]
      exact ih (i + (n + 1)) _ (by omega) (by simpa using hd)
    · rw [if_neg hlt, if_neg hlt]

theorem wrapping_Identity_eq (n : Int) (h0 : 0 ≤ n) (h : n * n < 2 ^ 63) :
    Wrapping.Identity n = Identity n := by
  have hnn : 0 ≤ n * n := mul_nonneg h0 h0
  unfold Wrapping.Identity Identity
  rw [wrapping_Zeros_eq n n (by omega) h, Zeros_eq n n hnn]
  simp only [Option.some_bind]
  rw [wrapping_identityLoop_eq n h0 (List.replicate (n * n).toNat F32.zero).length
    (by
      have := square_plus_stride_fits n h0 h
      simp only [List.length_replicate]
      omega) _ 0 _ (le_refl 0) rfl]

theorem wrapping_Multiply_eq (A B : Matrix) (h0 : -2 ^ 63 ≤ A.rows * B.columns)
    (h1 : A.rows * B.columns < 2 ^ 63) : Wrapping.Multiply A B = Multiply A B := by
  unfold Wrapping.Multiply Multiply
  rw [wrapping_Zeros_eq A.rows B.columns h0 h1]

end Gmatrix

namespace Gmatrix

/-! ## The constructors with `int` arithmetic: `New`, `Zeros`, `Identity` -/

theorem wrapping_New_of_length (r c : Int) (values : List F32)
    (h : (values.length : Int) = wrapInt (r * c)) :
    Wrapping.New r c values = some ⟨r, c, values⟩ := by
  have h0 : ¬ wrapInt (r * c) < 0 := by omega
  simp [Wrapping.New, Wrapping.Zeros, make, h, h0]

/-- Claim C1 (amended): `New(r, c, values)` panics exactly when `len(values)`
differs from the `int` product `r * c`, which wraps around; so whenever
`r * c` fits an `int` it panics exactly when `len(values) != r*c`.  In
particular `New(2, 3, [1,2,3])` panics, and when the lengths agree the result
has `rows = r`, `columns = c` and `data = values`. -/
theorem New_fails_iff_length_mismatch (r c : Int) (values : List F32) :
    (Wrapping.New r c values = none ↔ (values.length : Int) ≠ wrapInt (r * c)) ∧
    (-2 ^ 63 ≤ r * c → r * c < 2 ^ 63 →
      (Wrapping.New r c values = none ↔ (values.length : Int) ≠ r * c)) ∧
    Wrapping.New 2 3 [F32.ofNat 1, F32.ofNat 2, F32.ofNat 3] = none ∧
    ((values.length : Int) = wrapInt (r * c) →
      Wrapping.New r c values = some ⟨r, c, values⟩) := by
  have key : Wrapping.New r c values = none ↔ (values.length : Int) ≠ wrapInt (r * c) := by
    by_cases h : (values.length : Int) = wrapInt (r * c)
    · simp [wrapping_New_of_length r c values h, h]
    · simp [Wrapping.New, h]
  refine ⟨key, fun h0 h1 => ?_, by decide, wrapping_New_of_length r c values⟩
  rw [key, wrapInt_of_fits (r * c) h0 h1]

theorem New_fails_iff_length_mismatch_witness :
    (Wrapping.New 2 3 [F32.ofNat 1, F32.ofNat 2, F32.ofNat 3, F32.ofNat 4, F32.ofNat 5,
        F32.ofNat 6] = none ↔
      (([F32.ofNat 1, F32.ofNat 2, F32.ofNat 3, F32.ofNat 4, F32.ofNat 5,
        F32.ofNat 6].length : Nat) : Int) ≠ 2 * 3) ∧
    Wrapping.New 2 3 [F32.ofNat 1, F32.ofNat 2, F32.ofNat 3, F32.ofNat 4, F32.ofNat 5,
        F32.ofNat 6] =
      some ⟨2, 3, [F32.ofNat 1, F32.ofNat 2, F32.ofNat 3, F32.ofNat 4, F32.ofNat 5,
        F32.ofNat 6]⟩ :=
  ⟨(New_fails_iff_length_mismatch 2 3
      [F32.ofNat 1, F32.ofNat 2, F32.ofNat 3, F32.ofNat 4, F32.ofNat 5, F32.ofNat 6]).2.1
      (by decide) (by decide),
    (New_fails_iff_length_mismatch 2 3
      [F32.ofNat 1, F32.ofNat 2, F32.ofNat 3, F32.ofNat 4, F32.ofNat 5, F32.ofNat 6]).2.2.2
      (by decide)⟩

/-- Claim C1 fails as stated: the `int` product `(1<<32) * (1<<32)` wraps to 0,
so `New(1<<32, 1<<32, [])` passes the guard and returns the matrix with
`rows = columns = 2^32` and no data, although `len(values) = 0` is not
`r * c = 2^64`. -/
theorem New_returns_at_wrapped_product :
    wrapInt (2 ^ 32 * 2 ^ 32) = 0 ∧
    Wrapping.New (2 ^ 32) (2 ^ 32) [] = some ⟨2 ^ 32, 2 ^ 32, []⟩ ∧
    ((([] : List F32).length : Nat) : Int) ≠ 2 ^ 32 * 2 ^ 32 := by
  decide

theorem wrapping_Zeros_entries (rows columns : Int) (hrows : 0 ≤ rows) (hcols : 0 ≤ columns)
    (hfit : rows * columns < 2 ^ 63) :
    ∃ Z, Wrapping.Zeros rows columns = some Z ∧ Z.HasShape rows columns ∧
      ∀ r c : Int, 1 ≤ r → r ≤ rows → 1 ≤ c → c ≤ columns → Z.Get r c = some F32.zero := by
  have h0 : 0 ≤ rows * columns := mul_nonneg hrows hcols
  rw [wrapping_Zeros_eq rows columns (by omega) hfit]
  exact Zeros_entries rows columns hrows hcols

theorem wrapping_Identity_entries (n : Int) (hn : 0 ≤ n) (hfit : n * n < 2 ^ 63) :
    ∃ I, Wrapping.Identity n = some I ∧ I.rows = n ∧ I.columns = n ∧
      (I.data.length : Int) = n * n ∧
      ∀ i j : Int, 1 ≤ i → i ≤ n → 1 ≤ j → j ≤ n →
        I.Get i j = some (if i = j then F32.one else F32.zero) := by
  rw [wrapping_Identity_eq n hn hfit]
  exact Identity_entries n hn

end Gmatrix

namespace Gmatrix

/-! ## `Multiply` with `int` arithmetic -/

theorem wrapping_Multiply_entries_of_le (A B : Matrix) (hA : A.WellFormed)
    (hB : B.WellFormed) (h : A.columns ≤ B.rows) (hfit : A.rows * B.columns < 2 ^ 63) :
    ∃ C, Wrapping.Multiply A B = some C ∧ C.HasShape A.rows B.columns ∧
      ∀ r c : Int, 1 ≤ r → r ≤ A.rows → 1 ≤ c → c ≤ B.columns →
        ∃ row col v, A.Row r = some row ∧ B.Column c = some col ∧
          dotProduct row col = some v ∧ sumProducts A B r c = some v ∧
          C.Get r c = some v := by
  have h0 : 0 ≤ A.rows * B.columns := mul_nonneg hA.1 hB.2.1
  rw [wrapping_Multiply_eq A B (by omega) hfit]
  exact Multiply_entries_of_le A B hA hB h

theorem Set_keeps_columns_and_length (A A1 : Matrix) (r c : Int) (v : F32)
    (h : A.Set r c v = some A1) :
    A1.columns = A.columns ∧ A1.data.length = A.data.length := by
  unfold Matrix.Set at h
  obtain ⟨d, hd, rfl⟩ := Option.map_eq_some'.mp h
  unfold setIdx at hd
  split at hd
  · injection hd with hd
    subst hd
    exact ⟨rfl, by simp⟩
  · cases hd

theorem Set_none_of_empty (M : Matrix) (r c : Int) (v : F32) (h : M.data.length = 0) :
    M.Set r c v = none := by
  unfold Matrix.Set setIdx
  rw [if_neg (by omega)]
  rfl

/-- When the `int` product of the allocation wraps to 0 while `A.rows ≥ 1` and
`B.columns ≥ 1`, the result of `Multiply` has no cell and the first
`C.Set(1, 1, ...)` panics, unless `Row`, `Column` or `dotProduct` panicked
before. -/
theorem wrapping_Multiply_none_of_empty_allocation (A B : Matrix) (hAr : 1 ≤ A.rows)
    (hBc : 1 ≤ B.columns) (hwrap : wrapInt (A.rows * B.columns) = 0) :
    Wrapping.Multiply A B = none := by
  have hZ : Wrapping.Zeros A.rows B.columns = some ⟨A.rows, B.columns, []⟩ := by
    simp [Wrapping.Zeros, make, hwrap]
  simp only [Wrapping.Multiply, hZ, Option.some_bind]
  have hcell : ∀ (row : List F32) (r : Int) (M2 : Matrix) (c : Int) (M3 : Matrix),
      (M2.columns = B.columns ∧ M2.data.length = 0) →
      ((B.Column c).bind fun B_col => (dotProduct row B_col).bind fun v => M2.Set r c v) =
        some M3 → (M3.columns = B.columns ∧ M3.data.length = 0) := by
    intro row r M2 c M3 hM2 hc
    obtain ⟨col1, _, hc1⟩ := Option.bind_eq_some.mp hc
    obtain ⟨v, _, hset⟩ := Option.bind_eq_some.mp hc1
    obtain ⟨h1, h2⟩ := Set_keeps_columns_and_length M2 M3 r c v hset
    exact ⟨h1.trans hM2.1, h2.trans hM2.2⟩
  refine foldlM_none_of_mem (fun M => M.columns = B.columns ∧ M.data.length = 0) _ ?_ 1 ?_
    _ _ ⟨rfl, rfl⟩ ((mem_countTo A.rows 1).mpr ⟨le_refl 1, hAr⟩)
  · intro M r M1 hM hstep
    obtain ⟨row1, _, hinner⟩ := Option.bind_eq_some.mp hstep
    exact foldlM_preserves (fun M => M.columns = B.columns ∧ M.data.length = 0) _
      (fun M2 c M3 hM2 hc => hcell row1 r M2 c M3 hM2 hc) _ M M1 hM hinner
  · intro M hM
    cases hrow : A.Row 1 with
    | none => rfl
    | some row =>
      simp only [Option.some_bind]
      refine foldlM_none_of_mem (fun M => M.columns = B.columns ∧ M.data.length = 0) _
        (fun M2 c M3 hM2 hc => hcell row 1 M2 c M3 hM2 hc) 1 ?_ _ _ hM
        ((mem_countTo M.columns 1).mpr ⟨le_refl 1, by rw [hM.1]; exact hBc⟩)
      intro M2 hM2
      cases B.Column 1 with
      | none => rfl
      | some col =>
        cases hdot : dotProduct row col with
        | none => simp only [Option.some_bind, hdot, Option.none_bind]
        | some v =>
          simp only [Option.some_bind, hdot]
          exact Set_none_of_empty M2 1 1 v hM2.2

end Gmatrix

namespace Gmatrix

theorem wrapping_Multiply_none_of_lt (A B : Matrix)
    (hA : (A.data.length : Int) = A.rows * A.columns)
    (hB : (B.data.length : Int) = B.rows * B.columns)
    (hAr : 1 ≤ A.rows) (hBc : 1 ≤ B.columns) (hfit : A.rows * B.columns < 2 ^ 63)
    (h : B.rows < A.columns) : Wrapping.Multiply A B = none := by
  have h0 : 0 ≤ A.rows * B.columns := mul_nonneg (by omega) (by omega)
  rw [wrapping_Multiply_eq A B (by omega) hfit]
  exact Multiply_none_of_lt A B hA hB hAr hBc h

/-- Claim C14 (amended): the invariant `len(data) == rows*columns` holds for
the matrices returned by `Zeros` and `Identity` given non-negative dimensions
whose product fits an `int`, and by `New` when it does not fail and `r * c`
fits an `int`; it is preserved by `Set` at a position of the grid and by
`Scalar`; it holds for the result of `Multiply` whenever it holds for the
arguments and `A.rows * B.columns` fits an `int`, and for the result of `Add`
whenever it holds for the arguments. -/
theorem LenInvariant_maintained :
    (∀ r c : Int, 0 ≤ r → 0 ≤ c → r * c < 2 ^ 63 →
      ∃ Z, Wrapping.Zeros r c = some Z ∧ Z.LenInvariant) ∧
    (∀ (r c : Int) (values : List F32) (A : Matrix), -2 ^ 63 ≤ r * c → r * c < 2 ^ 63 →
      Wrapping.New r c values = some A → A.LenInvariant) ∧
    (∀ n : Int, 0 ≤ n → n * n < 2 ^ 63 →
      ∃ I, Wrapping.Identity n = some I ∧ I.LenInvariant) ∧
    (∀ (A : Matrix) (r c : Int) (v : F32), A.LenInvariant →
      1 ≤ r → r ≤ A.rows → 1 ≤ c → c ≤ A.columns →
      ∃ A1, A.Set r c v = some A1 ∧ A1.LenInvariant) ∧
    (∀ (A : Matrix) (k : F32), A.LenInvariant →
      ∃ A1, A.Scalar k = some A1 ∧ A1.LenInvariant) ∧
    (∀ A B C : Matrix, A.LenInvariant → B.LenInvariant →
      -2 ^ 63 ≤ A.rows * B.columns → A.rows * B.columns < 2 ^ 63 →
      Wrapping.Multiply A B = some C → C.LenInvariant) ∧
    (∀ A B C : Matrix, A.LenInvariant → B.LenInvariant →
      Add A B = some C → C.LenInvariant) := by
  refine ⟨?_, ?_, ?_, ?_, ?_, ?_, ?_⟩
  · intro r c hr hc hfit
    obtain ⟨Z, hZ, hsh, _⟩ := wrapping_Zeros_entries r c hr hc hfit
    exact ⟨Z, hZ, LenInvariant_of_HasShape Z r c hsh⟩
  · intro r c values A h0 h1 h
    rw [wrapping_New_eq r c values h0 h1] at h
    by_cases hl : (values.length : Int) = r * c
    · rw [New_of_length r c values hl] at h
      injection h with h
      subst h
      exact hl
    · simp [New, hl] at h
  · intro n hn hfit
    obtain ⟨I, hI, hr, hc, hl, _⟩ := wrapping_Identity_entries n hn hfit
    exact ⟨I, hI, LenInvariant_of_HasShape I n n ⟨hr, hc, hl⟩⟩
  · intro A r c v hA hr1 hr hc1 hc
    refine ⟨_, Set_eq A r c v hA hr1 hr hc1 hc, ?_⟩
    exact LenInvariant_of_HasShape _ A.rows A.columns
      (HasShape_set A A.rows A.columns ⟨rfl, rfl, hA⟩ _ v)
  · intro A k hA
    obtain ⟨A1, hA1, hsh, _⟩ := Scalar_entries A k hA
    exact ⟨A1, hA1, LenInvariant_of_HasShape A1 _ _ hsh⟩
  · intro A B C _ _ h0 h1 h
    rw [wrapping_Multiply_eq A B h0 h1] at h
    exact LenInvariant_of_HasShape C _ _ (Multiply_preserves_shape A B C h)
  · intro A B C _ _ h
    exact LenInvariant_of_HasShape C _ _ (Add_preserves_shape A B C h)

set_option maxRecDepth 100000 in
theorem LenInvariant_maintained_witness :
    (∃ Z, Wrapping.Zeros 3 2 = some Z ∧ Z.LenInvariant) ∧
    (∃ I, Wrapping.Identity 3 = some I ∧ I.LenInvariant) ∧
    (∃ A1, Matrix.Scalar ⟨2, 2, [F32.ofNat 1, F32.ofNat 2, F32.ofNat 3, F32.ofNat 4]⟩
      (F32.ofNat 3) = some A1 ∧ A1.LenInvariant) ∧
    Matrix.LenInvariant ⟨2, 2, [F32.ofNat 6, F32.ofNat 8, F32.ofNat 10, F32.ofNat 12]⟩ :=
  ⟨LenInvariant_maintained.1 3 2 (by decide) (by decide) (by decide),
    LenInvariant_maintained.2.2.1 3 (by decide) (by decide),
    LenInvariant_maintained.2.2.2.2.1 ⟨2, 2, _⟩ (F32.ofNat 3) (by decide),
    LenInvariant_maintained.2.2.2.2.2.2
      ⟨2, 2, [F32.ofNat 1, F32.ofNat 2, F32.ofNat 3, F32.ofNat 4]⟩
      ⟨2, 2, [F32.ofNat 5, F32.ofNat 6, F32.ofNat 7, F32.ofNat 8]⟩
      ⟨2, 2, [F32.ofNat 6, F32.ofNat 8, F32.ofNat 10, F32.ofNat 12]⟩
      (by decide) (by decide) (by decide)⟩

/-- Claim C14 fails as stated: with the `int` product wrapped to 0,
`Zeros(1<<32, 1<<32)`, `Identity(1<<32)` and `New(1<<32, 1<<32, [])` return the
matrix with `rows = columns = 2^32` and no data, which violates
`len(data) == rows*columns`; and for `A = Zeros(-(1<<32), 0)`,
`B = Zeros(0, -(1<<32))`, which satisfy the invariant, `Multiply(A, B)` returns
the matrix with `rows = columns = -2^32` and no data, which violates it. -/
theorem LenInvariant_broken_at_wrapped_product :
    Wrapping.Zeros (2 ^ 32) (2 ^ 32) = some ⟨2 ^ 32, 2 ^ 32, []⟩ ∧
    Wrapping.Identity (2 ^ 32) = some ⟨2 ^ 32, 2 ^ 32, []⟩ ∧
    Wrapping.New (2 ^ 32) (2 ^ 32) [] = some ⟨2 ^ 32, 2 ^ 32, []⟩ ∧
    ¬ Matrix.LenInvariant ⟨2 ^ 32, 2 ^ 32, []⟩ ∧
    Matrix.LenInvariant ⟨-2 ^ 32, 0, []⟩ ∧ Matrix.LenInvariant ⟨0, -2 ^ 32, []⟩ ∧
    Wrapping.Multiply ⟨-2 ^ 32, 0, []⟩ ⟨0, -2 ^ 32, []⟩ = some ⟨-2 ^ 32, -2 ^ 32, []⟩ ∧
    ¬ Matrix.LenInvariant ⟨-2 ^ 32, -2 ^ 32, []⟩ := by
  decide

end Gmatrix

namespace Gmatrix

/-! ## Products with `Identity` and `Zeros`, with `int` arithmetic -/

/-- The sum of products of row `r` of `A`, whose values are finite, with a
column that is the unit vector at `d` (or the zero vector, for `d` outside
`1..A.columns`). Only row `r` of `A` is constrained. -/
theorem sumProducts_unit_column (A B : Matrix) (r c d : Int)
    (hA : ∀ k : Int, 1 ≤ k → k ≤ A.columns → ∃ x, A.Get r k = some x ∧ F32.IsFinite x)
    (hB : ∀ k : Int, 1 ≤ k → k ≤ A.columns →
      B.Get k c = some (if k = d then F32.one else F32.zero)) :
    (d ∉ countTo A.columns → sumProducts A B r c = some F32.zero) ∧
    (d ∈ countTo A.columns → sumProducts A B r c =
      some (if (A.Get r d).getD F32.nan = F32.fin true 0 then F32.zero
        else (A.Get r d).getD F32.nan)) := by
  have hsum := foldlM_products_eq_foldl A B r c (countTo A.columns) F32.zero
    (fun k hk => by
      obtain ⟨hk1, hkN⟩ := (mem_countTo A.columns k).mp hk
      exact (hA k hk1 hkN).imp fun _ h => h.1)
    (fun k hk => by
      obtain ⟨hk1, hkN⟩ := (mem_countTo A.columns k).mp hk
      exact ⟨_, hB k hk1 hkN⟩)
  obtain ⟨h1, h2⟩ := F32.foldl_unit_vector (fun k => (A.Get r k).getD F32.nan)
    (fun k => (B.Get k c).getD F32.nan) d (countTo A.columns) F32.zero
    (nodup_countTo A.columns)
    (fun k hk => by
      obtain ⟨hk1, hkN⟩ := (mem_countTo A.columns k).mp hk
      obtain ⟨x, hx, hfin⟩ := hA k hk1 hkN
      simpa [hx] using hfin)
    (fun k hk => by
      obtain ⟨hk1, hkN⟩ := (mem_countTo A.columns k).mp hk
      simp [hB k hk1 hkN])
    ⟨F32.representable_zero, fun _ => rfl⟩
  unfold sumProducts
  exact ⟨fun h => by rw [hsum, h1 h], fun h => by rw [hsum, h2 h rfl]⟩

end Gmatrix
